import Mathlib

/-
Verification development for `src/pdf_split/pdf_split.cpp` (GlockMax/pdf_split).

The program batch-extracts per-page text from a directory of PDF files:
worker threads claim page indices through an atomic fetch-and-increment
counter, push `PageResult` values into a mutex/condition-variable queue,
and a single writer thread materializes each result to
`<output_dir>/<pdf_name>/<page_id>/text_layer.txt`.

Shallow embedding:
- the poppler document engine is modelled as a table of optional pages
  (`none` = `create_page` returned null);
- the thread-safe queue is a list plus a `finished` flag; `pop`'s blocking
  is captured by `popReady`, the exact predicate the condition variable
  waits on;
- the concurrent per-document pipeline (`process_pdf`) is an interleaving
  transition system `Step`: atomic fetch-and-increment steps, separate
  push steps, the coordinator's `set_finished` (enabled only once every
  worker has exited its loop, reflecting the join loop that precedes
  `result_queue.set_finished()` in the source), and writer pop steps;
- the filesystem is a list of directories plus an association list of
  files; `std::to_string` is modelled by an executable decimal printer;
- CLI / batch-driver glue (`main`, `process_directory`) is modelled
  functionally, with the filesystem effect of one document summarized by
  the writer folded over the document's producible results.
-/

/-! ### Document engine model (poppler interface, spec section 6) -/

/-- Model of a `poppler::page`: the page's text layer, already decoded to
UTF-8 (`page->text().to_utf8()` read back as a byte string). -/
structure PopplerPage where
  textUtf8 : String
deriving DecidableEq, Repr

/-- Model of a `poppler::document`: for each index below the page count,
either the page (`create_page` succeeds) or `none` (`create_page` returns
null). -/
structure PopplerDoc where
  pageTable : List (Option PopplerPage)
deriving DecidableEq, Repr

/-- `doc->pages()`. -/
def PopplerDoc.pages (d : PopplerDoc) : Nat := d.pageTable.length

/-- `doc->create_page(i)`: the page, or `none` when the open fails. -/
def PopplerDoc.create_page (d : PopplerDoc) (i : Nat) : Option PopplerPage :=
  d.pageTable.getD i none

/-- `struct PageResult` (pdf_split.cpp lines 18-23).  `page_id` is an `int`
in the source but only ever holds values of the counter that starts at 0,
so `Nat` is faithful.  The image payload is opaque here; the extraction
loop in the source is commented out, so `images` is always empty. -/
structure PageResult where
  pdf_name : String
  page_id : Nat
  text : String
  images : List (Nat × String)
deriving DecidableEq, Repr

/-- `process_page` (lines 26-49): null page gives empty text; otherwise the
text layer is copied verbatim.  The image-extraction loop is commented out
in the source, so `images` stays empty. -/
def process_page (page : Option PopplerPage) (pdf_name : String) (page_id : Nat) : PageResult :=
  match page with
  | none => { pdf_name := pdf_name, page_id := page_id, text := "", images := [] }
  | some p => { pdf_name := pdf_name, page_id := page_id, text := p.textUtf8, images := [] }

/-! ### Result channel (`class PageResultQueue`, lines 52-80) -/

/-- The queue's shared state: FIFO contents (`std::queue`, front = head of
the list) and the `finished_` flag.  The mutex and condition variable are
represented by the atomicity of the operations and by `popReady`. -/
structure PageResultQueue where
  queue : List PageResult
  finished : Bool
deriving DecidableEq, Repr

/-- `push` (lines 54-58): append at the back, never blocks. -/
def PageResultQueue.push (q : PageResultQueue) (r : PageResult) : PageResultQueue :=
  { q with queue := q.queue ++ [r] }

/-- The predicate the condition variable in `pop` waits on
(line 62): `!queue_.empty() || finished_`.  `pop` blocks exactly while
this is false. -/
def PageResultQueue.popReady (q : PageResultQueue) : Bool :=
  !q.queue.isEmpty || q.finished

/-- `pop` (lines 60-67), the post-wait body: empty queue returns false
("end") and leaves the state; otherwise the front (oldest) element is
removed and returned. -/
def PageResultQueue.pop (q : PageResultQueue) : Option PageResult × PageResultQueue :=
  match q.queue with
  | [] => (none, q)
  | r :: rest => (some r, { q with queue := rest })

/-- `set_finished` (lines 69-73): sets the flag, wakes all consumers. -/
def PageResultQueue.set_finished (q : PageResultQueue) : PageResultQueue :=
  { q with finished := true }

/-- Iterated `pop`: the sequence of values a consumer calling `pop`
repeatedly would observe (no interleaved pushes). -/
def PageResultQueue.popIter (q : PageResultQueue) : Nat → List (Option PageResult)
  | 0 => []
  | Nat.succ n => (q.pop).1 :: (q.pop).2.popIter n

/-! ### Decimal printing (`std::to_string(int)` on a nonnegative value) -/

/-- One decimal digit as a character. -/
def digitChar : Nat → Char
  | 0 => '0'
  | 1 => '1'
  | 2 => '2'
  | 3 => '3'
  | 4 => '4'
  | 5 => '5'
  | 6 => '6'
  | 7 => '7'
  | 8 => '8'
  | 9 => '9'
  | _ => '?'

/-- Least-significant-first decimal digits, with structural fuel so that
the definition evaluates by kernel reduction. -/
def digitsRev (fuel : Nat) (n : Nat) : List Nat :=
  match fuel with
  | 0 => []
  | Nat.succ f => if n = 0 then [] else (n % 10) :: digitsRev f (n / 10)

/-- Model of `std::to_string` on a nonnegative int: usual decimal
notation, "0" for zero. -/
def to_string_model (n : Nat) : String :=
  if n = 0 then "0" else String.mk (((digitsRev n n).map digitChar).reverse)

/-- Value of a least-significant-first digit list. -/
def digitsVal : List Nat → Nat
  | [] => 0
  | d :: ds => d + 10 * digitsVal ds

/-! ### Filesystem model -/

/-- Filesystem state: the set of existing directories (each a component
list) and the files (association list from component-list path to
contents; the last binding for a path is current). -/
structure FSState where
  dirs : List (List String)
  files : List (List String × String)
deriving DecidableEq, Repr

def emptyFS : FSState := { dirs := [], files := [] }

/-- Record a directory as existing (idempotent). -/
def addDir (ds : List (List String)) (p : List String) : List (List String) :=
  if p ∈ ds then ds else ds ++ [p]

/-- All nonempty initial segments of a path: the directory itself and
every parent `fs::create_directories` would create. -/
def ancestorsOf (p : List String) : List (List String) :=
  (List.range p.length).map (fun k => p.take (k + 1))

/-- `fs::create_directories(p)`: create `p` and all parents, idempotently. -/
def create_directories (fs : FSState) (p : List String) : FSState :=
  { fs with dirs := (ancestorsOf p).foldl addDir fs.dirs }

/-- `std::ofstream ofs(path); ofs << content`: create-or-truncate, so any
earlier binding for the same path is replaced. -/
def writeFile (fs : FSState) (p : List String) (content : String) : FSState :=
  { fs with files := (fs.files.filter (fun e => decide (e.1 ≠ p))) ++ [(p, content)] }

/-- Contents of the file at `p`, if any (latest binding wins). -/
def readFile (fs : FSState) (p : List String) : Option String :=
  (fs.files.reverse.find? (fun e => decide (e.1 = p))).map Prod.snd

/-! ### Writer (`writer_thread`, lines 82-101) -/

/-- Output directory for one result:
`output_dir / (result.pdf_name + "/" + std::to_string(result.page_id))`,
i.e. the components `output_dir ++ [pdf_name, page_id]`. -/
def pageDirOf (output_dir : List String) (r : PageResult) : List String :=
  output_dir ++ [r.pdf_name, to_string_model r.page_id]

/-- Path of the text file the writer produces for one result. -/
def textFileOf (output_dir : List String) (r : PageResult) : List String :=
  pageDirOf output_dir r ++ ["text_layer.txt"]

/-- One iteration of the writer loop body (lines 84-100):
`create_directories(page_dir)` then write the text layer.  The
image-writing loop is commented out in the source. -/
def writer_write (output_dir : List String) (fs : FSState) (r : PageResult) : FSState :=
  writeFile (create_directories fs (pageDirOf output_dir r)) (textFileOf output_dir r) r.text

/-- The writer loop folded over the results it consumes, in consumption
order. -/
def writer_run (output_dir : List String) (fs : FSState) (rs : List PageResult) : FSState :=
  rs.foldl (writer_write output_dir) fs

/-! ### Path filename functions (`std::filesystem::path`) -/

/-- Index of the last '.' in a character list, if any. -/
def lastDotIdx (cs : List Char) : Option Nat :=
  match cs.reverse.findIdx? (fun c => c == '.') with
  | none => none
  | some j => some (cs.length - 1 - j)

/-- `path::extension()` on a filename, per the C++ standard: empty for
"." and "..", empty when there is no dot or the only dot is leading,
otherwise the suffix starting at the last dot. -/
def filenameExtension (fn : String) : String :=
  if fn = "." ∨ fn = ".." then ""
  else
    match lastDotIdx fn.data with
    | none => ""
    | some 0 => ""
    | some i => String.mk (fn.data.drop i)

/-- `path::stem()` on a filename: the filename with `extension()`
removed. -/
def filenameStem (fn : String) : String :=
  if fn = "." ∨ fn = ".." then fn
  else
    match lastDotIdx fn.data with
    | none => fn
    | some 0 => fn
    | some i => String.mk (fn.data.take i)

/-! ### CLI and batch-driver glue (`main`, `process_directory`) -/

/-- `std::stoi`: skip leading whitespace, optional sign, then a nonempty
digit run (parsing stops at the first non-digit).  `none` models the
exceptions the program does not catch, so either outcome aborts the
process: `std::invalid_argument` when no digits are found, and
`std::out_of_range` when the converted value does not fit in `int`
(outside `[-2147483648, 2147483647]`). -/
def stoiModel (s : String) : Option Int :=
  let cs := s.data.dropWhile Char.isWhitespace
  let signed : Bool × List Char :=
    match cs with
    | c :: rest => if c = '-' then (true, rest) else if c = '+' then (false, rest) else (false, cs)
    | [] => (false, [])
  let ds := signed.2.takeWhile Char.isDigit
  if ds.isEmpty then none
  else
    let v : Nat := ds.foldl (fun acc c => acc * 10 + (c.toNat - 48)) 0
    let r : Int := if signed.1 then -(v : Int) else (v : Int)
    if r < -2147483648 ∨ 2147483647 < r then none else some r

/-- Split a character list at slashes (structural recursion; `cur` holds
the current component reversed). -/
def splitComps (cs : List Char) (cur : List Char) : List String :=
  match cs with
  | [] => [String.mk cur.reverse]
  | c :: rest =>
    if c = '/' then String.mk cur.reverse :: splitComps rest []
    else splitComps rest (c :: cur)

/-- Split a path string into components, as `std::filesystem::path`
iteration does for relative paths. -/
def pathComponents (s : String) : List String :=
  (splitComps s.data []).filter (fun c => decide (c ≠ ""))

/-- Number of worker threads `process_pdf` launches:
`for (int i = 0; i < thread_count; ++i)` runs `max thread_count 0`
times. -/
def numWorkers (thread_count : Int) : Nat := thread_count.toNat

/-- One `fs::directory_iterator` entry: its filename, whether it is a
regular file, and the outcome of `poppler::document::load_from_file` on
it (`none` = load fails / returns null). -/
structure DirEntry where
  filename : String
  is_regular_file : Bool
  doc : Option PopplerDoc
deriving DecidableEq, Repr

/-- The filter in `process_directory` (line 154):
`entry.is_regular_file() && entry.path().extension() == ".pdf"`. -/
def entrySelected (e : DirEntry) : Bool :=
  e.is_regular_file && (filenameExtension e.filename == ".pdf")

/-- The results a document with every worker running can produce: one per
successfully opening page index, in index order.  `n` caps the claimed
indices (used by the pipeline invariant below); the full document run is
`canonicalResults doc name doc.pages`. -/
def canonicalResults (doc : PopplerDoc) (name : String) (n : Nat) : List PageResult :=
  (List.range (min n doc.pages)).filterMap
    (fun i => (doc.create_page i).map (fun p => process_page (some p) name i))

/-- All results producible for one document. -/
def documentResults (doc : PopplerDoc) (name : String) : List PageResult :=
  canonicalResults doc name doc.pages

/-- Functional summary of `process_pdf` (lines 103-150): failure to load
prints a diagnostic and returns with nothing else done; with no workers
nothing is produced; otherwise the writer materializes every producible
result (the pipeline theorems below justify that every completed
interleaving delivers exactly `documentResults` to the writer).  Returns
the new filesystem and the emitted diagnostics. -/
def process_pdf_model (output_dir : List String) (thread_count : Int)
    (fs : FSState) (e : DirEntry) : FSState × List String :=
  match e.doc with
  | none => (fs, ["Failed to open PDF: " ++ e.filename])
  | some doc =>
    if numWorkers thread_count = 0 then (fs, [])
    else (writer_run output_dir fs (documentResults doc (filenameStem e.filename)), [])

/-- `process_directory` (lines 152-158): iterate the entries, processing
exactly the regular files with extension ".pdf", sequentially. -/
def process_directory_model (output_dir : List String) (thread_count : Int) :
    List DirEntry → FSState → FSState × List String
  | [], fs => (fs, [])
  | e :: rest, fs =>
    if entrySelected e then
      let step1 := process_pdf_model output_dir thread_count fs e
      let rest1 := process_directory_model output_dir thread_count rest step1.1
      (rest1.1, step1.2 ++ rest1.2)
    else process_directory_model output_dir thread_count rest fs

def usageMsg : String := "Usage: <input_dir> <output_dir> <thread_count>"

def dirErrMsg : String := "Input directory does not exist or is not a directory."

/-- `main` (lines 160-182).  `args` is the full `argv` (program name
first); `inputExists` and `inputIsDir` model `fs::exists` /
`fs::is_directory` on `argv[1]`.  Result: `none` models abnormal
termination via the uncaught `std::stoi` exception; otherwise
`(exit code, final filesystem, diagnostics)`.  The source checks
`argc < 4`, calls `std::stoi(argv[3])`, then checks the input directory,
and only then creates the output directory. -/
def main_model (args : List String) (inputExists : Bool) (inputIsDir : Bool)
    (entries : List DirEntry) : Option (Nat × FSState × List String) :=
  if args.length < 4 then some (1, emptyFS, [usageMsg])
  else
    match stoiModel (args.getD 3 "") with
    | none => none
    | some tc =>
      if inputExists && inputIsDir then
        let out := pathComponents (args.getD 2 "")
        let fs0 := create_directories emptyFS out
        let run := process_directory_model out tc entries fs0
        some (0, run.1, run.2)
      else some (1, emptyFS, [dirErrMsg])

/-! ### The per-document concurrent pipeline (`process_pdf`, lines 103-150)

An interleaving semantics.  A worker's loop body decomposes into the
atomic fetch-and-increment (after which it either exits, skips a failed
page, or holds a `PageResult` it is about to push) and the push into the
queue.  The coordinator's `set_finished` can only fire after every worker
thread has exited (the join loop at lines 141-143 precedes
`set_finished()` at line 146).  The writer's `pop` fires only when the
condition-variable predicate `popReady` holds; a false return is only
possible with an empty queue, and the writer thread then exits. -/

/-- Local state of one worker thread: `idle` = about to fetch-and-add,
`working r` = holding a freshly produced result not yet pushed, `done` =
exited the loop. -/
inductive WStatus where
  | idle : WStatus
  | working (r : PageResult) : WStatus
  | done : WStatus
deriving DecidableEq, Repr

/-- Shared state of one `process_pdf` run.  `claims` is a history
variable recording, in fetch order, which worker claimed which page
index below the page count. -/
structure PipeState where
  counter : Nat
  workers : List WStatus
  chan : PageResultQueue
  written : List PageResult
  writerDone : Bool
  claims : List (Nat × Nat)
deriving DecidableEq, Repr

/-- Initial state: `current_page` at 0, all workers entering their loops,
fresh queue, writer running. -/
def initPipe (w : Nat) : PipeState :=
  { counter := 0
    workers := List.replicate w WStatus.idle
    chan := { queue := [], finished := false }
    written := []
    writerDone := false
    claims := [] }

/-- One interleaved atomic step of the pipeline. -/
inductive Step (doc : PopplerDoc) (name : String) : PipeState → PipeState → Prop where
  | fetchExit (s : PipeState) (w : Nat) :
      s.workers[w]? = some WStatus.idle →
      doc.pages ≤ s.counter →
      Step doc name s
        { s with counter := s.counter + 1, workers := s.workers.set w WStatus.done }
  | fetchOpenOk (s : PipeState) (w : Nat) (p : PopplerPage) :
      s.workers[w]? = some WStatus.idle →
      s.counter < doc.pages →
      doc.create_page s.counter = some p →
      Step doc name s
        { s with counter := s.counter + 1
                 workers := s.workers.set w (WStatus.working (process_page (some p) name s.counter))
                 claims := s.claims ++ [(w, s.counter)] }
  | fetchOpenFail (s : PipeState) (w : Nat) :
      s.workers[w]? = some WStatus.idle →
      s.counter < doc.pages →
      doc.create_page s.counter = none →
      Step doc name s
        { s with counter := s.counter + 1, claims := s.claims ++ [(w, s.counter)] }
  | pushResult (s : PipeState) (w : Nat) (r : PageResult) :
      s.workers[w]? = some (WStatus.working r) →
      Step doc name s
        { s with workers := s.workers.set w WStatus.idle, chan := s.chan.push r }
  | finish (s : PipeState) :
      (∀ st ∈ s.workers, st = WStatus.done) →
      s.chan.finished = false →
      Step doc name s { s with chan := s.chan.set_finished }
  | writerPop (s : PipeState) (r : PageResult) :
      s.writerDone = false →
      (s.chan.pop).1 = some r →
      Step doc name s
        { s with written := s.written ++ [r], chan := (s.chan.pop).2 }
  | writerEnd (s : PipeState) :
      s.writerDone = false →
      s.chan.popReady = true →
      (s.chan.pop).1 = none →
      Step doc name s { s with writerDone := true }

/-- States reachable from the start of one `process_pdf` run with `w`
worker threads. -/
def Reachable (doc : PopplerDoc) (name : String) (w : Nat) (s : PipeState) : Prop :=
  Relation.ReflTransGen (Step doc name) (initPipe w) s

/-- Executions of a given length. -/
inductive Steps (doc : PopplerDoc) (name : String) : Nat → PipeState → PipeState → Prop where
  | refl (s : PipeState) : Steps doc name 0 s s
  | tail {n : Nat} {s t u : PipeState} :
      Steps doc name n s t → Step doc name t u → Steps doc name (n + 1) s u

/-- Results held by workers that have extracted but not yet pushed. -/
def workingResults (ws : List WStatus) : List PageResult :=
  ws.filterMap (fun st => match st with
    | WStatus.working r => some r
    | _ => none)

def isWorkingB : WStatus → Bool
  | WStatus.working _ => true
  | _ => false

def countWorking (ws : List WStatus) : Nat := ws.countP isWorkingB

def countDone (ws : List WStatus) : Nat :=
  ws.countP (fun st => decide (st = WStatus.done))

/-- Ranking function: strictly decreases along every `Step`, bounding the
length of every execution. -/
def measureOf (doc : PopplerDoc) (w : Nat) (s : PipeState) : Nat :=
  3 * (doc.pages + w - s.counter) + 2 * countWorking s.workers + s.chan.queue.length
    + (if s.chan.finished then 0 else 1) + 2 * (if s.writerDone then 0 else 1)

/-- Pipeline invariant, preserved by every step from the initial state. -/
def PipeInv (doc : PopplerDoc) (name : String) (w : Nat) (s : PipeState) : Prop :=
  s.workers.length = w
  ∧ s.counter ≤ doc.pages + countDone s.workers
  ∧ (s.chan.finished = true → ∀ st ∈ s.workers, st = WStatus.done)
  ∧ ((∃ st ∈ s.workers, st = WStatus.done) → doc.pages ≤ s.counter)
  ∧ (s.writerDone = true → s.chan.finished = true ∧ s.chan.queue = [])
  ∧ List.Perm (s.written ++ s.chan.queue ++ workingResults s.workers)
      (canonicalResults doc name s.counter)
  ∧ s.claims.map Prod.snd = List.range (min s.counter doc.pages)

/-! ### Concrete data for evaluation witnesses -/

def demoPage0 : PopplerPage := { textUtf8 := "Hello" }

def demoPage1 : PopplerPage := { textUtf8 := "World" }

/-- A two-page document whose pages both open. -/
def demoDoc : PopplerDoc := { pageTable := [some demoPage0, some demoPage1] }

/-- A two-page document whose page 0 fails to open. -/
def demoFailDoc : PopplerDoc := { pageTable := [none, some demoPage1] }

def demoRes0 : PageResult := process_page (some demoPage0) "report" 0

def demoRes1 : PageResult := process_page (some demoPage1) "report" 1

/-- Final state of a complete single-worker run over `demoDoc` in which
the worker pushes both results before the coordinator finishes and the
writer then drains. -/
def demoFinal : PipeState :=
  { counter := 3
    workers := [WStatus.done]
    chan := { queue := [], finished := true }
    written := [demoRes0, demoRes1]
    writerDone := true
    claims := [(0, 0), (0, 1)] }

/-- State of the same run just after the worker exits, before
`set_finished`. -/
def demoJoined : PipeState :=
  { counter := 3
    workers := [WStatus.done]
    chan := { queue := [demoRes0, demoRes1], finished := false }
    written := []
    writerDone := false
    claims := [(0, 0), (0, 1)] }

/-- A directory entry whose document fails to load. -/
def demoFailEntry : DirEntry := { filename := "bad.pdf", is_regular_file := true, doc := none }

/-- A directory entry whose document loads as `demoDoc`. -/
def demoEntry : DirEntry := { filename := "report.pdf", is_regular_file := true, doc := some demoDoc }

/-- A regular file whose extension differs from ".pdf" only in case. -/
def demoUpperEntry : DirEntry := { filename := "doc.PDF", is_regular_file := true, doc := none }

def demoFailRes : PageResult := process_page (some demoPage1) "report" 1

/-- Final state of a complete single-worker run over `demoFailDoc`
(page 0 fails to open, page 1 succeeds). -/
def demoFailFinal : PipeState :=
  { counter := 3
    workers := [WStatus.done]
    chan := { queue := [], finished := true }
    written := [demoFailRes]
    writerDone := true
    claims := [(0, 0), (0, 1)] }

/-! ### Basic list helpers -/

theorem list_split_of_getElem? {α : Type} {l : List α} {i : Nat} {a : α}
    (h : l[i]? = some a) : l = l.take i ++ a :: l.drop (i + 1) := by
  obtain ⟨hlt, hget⟩ := List.getElem?_eq_some.1 h
  conv_lhs => rw [← List.take_append_drop i l]
  rw [List.drop_eq_getElem_cons hlt, hget]

theorem list_set_split {α : Type} {l : List α} {i : Nat} {a : α}
    (h : l[i]? = some a) (b : α) : l.set i b = l.take i ++ b :: l.drop (i + 1) := by
  obtain ⟨hlt, _⟩ := List.getElem?_eq_some.1 h
  rw [List.set_eq_take_append_cons_drop, if_pos hlt]

theorem exists_getElem?_of_mem {α : Type} {l : List α} {a : α} (h : a ∈ l) :
    ∃ i : Nat, l[i]? = some a := by
  obtain ⟨i, hi, he⟩ := List.getElem_of_mem h
  exact ⟨i, List.getElem?_eq_some.2 ⟨hi, he⟩⟩

/-! ### Result-channel lemmas -/

theorem pop_of_cons {q : PageResultQueue} {r : PageResult} {rest : List PageResult}
    (h : q.queue = r :: rest) : q.pop = (some r, { q with queue := rest }) := by
  cases q with
  | mk qu fin => cases h; rfl

theorem pop_of_nil {q : PageResultQueue} (h : q.queue = []) : q.pop = (none, q) := by
  cases q with
  | mk qu fin => cases h; rfl

theorem queue_eq_nil_of_pop_none {q : PageResultQueue} (h : (q.pop).1 = none) :
    q.queue = [] := by
  cases hq : q.queue with
  | nil => rfl
  | cons r rest => rw [pop_of_cons hq] at h; cases h

theorem pop_some_dest {q : PageResultQueue} {r : PageResult}
    (h : (q.pop).1 = some r) :
    q.queue = r :: ((q.pop).2).queue ∧ ((q.pop).2).finished = q.finished := by
  cases hq : q.queue with
  | nil => rw [pop_of_nil hq] at h; cases h
  | cons a rest =>
    rw [pop_of_cons hq] at h ⊢
    cases h
    exact ⟨rfl, rfl⟩

/-- C2: `pop` blocks exactly while the queue is empty and the channel is
not finished; with items queued it removes and returns the oldest
(front) element; once finished and drained it returns "end" and leaves
the state unchanged, so every later `pop` also returns "end"; `push`
appends at the back. -/
theorem claim_C2_pop_semantics (q : PageResultQueue) :
    (q.popReady = false ↔ (q.queue = [] ∧ q.finished = false))
    ∧ (∀ r rest, q.queue = r :: rest → q.pop = (some r, { q with queue := rest }))
    ∧ (q.queue = [] → q.finished = true → q.pop = (none, q))
    ∧ (q.queue = [] → q.finished = true → ∀ n, q.popIter n = List.replicate n none)
    ∧ (∀ r0, (q.push r0).queue = q.queue ++ [r0]) := by
  refine ⟨?_, ?_, ?_, ?_, ?_⟩
  · constructor
    · intro h
      cases hq : q.queue <;> cases hf : q.finished <;>
        simp_all [PageResultQueue.popReady]
    · rintro ⟨h1, h2⟩
      simp [PageResultQueue.popReady, h1, h2]
  · intro r rest h
    exact pop_of_cons h
  · intro h _
    exact pop_of_nil h
  · intro h1 h2 n
    induction n with
    | zero => rfl
    | succ m ih =>
      rw [PageResultQueue.popIter, pop_of_nil h1]
      rw [List.replicate_succ]
      exact congrArg (List.cons none) ih
  · intro r0
    rfl

/-- Witness for C2 at concrete queues: a queue holding one result hands
it back, and a finished drained queue answers "end" three times. -/
theorem claim_C2_witness :
    ({ queue := [demoRes0], finished := false } : PageResultQueue).pop
        = (some demoRes0, { queue := [], finished := false })
    ∧ ({ queue := [], finished := true } : PageResultQueue).popIter 3
        = [none, none, none] := by
  constructor
  · exact (claim_C2_pop_semantics { queue := [demoRes0], finished := false }).2.1
      demoRes0 [] rfl
  · exact (claim_C2_pop_semantics { queue := [], finished := true }).2.2.2.1 rfl rfl 3

/-! ### Filesystem lemmas -/

theorem mem_addDir_of_mem {ds : List (List String)} {q : List String}
    (p : List String) (h : q ∈ ds) : q ∈ addDir ds p := by
  unfold addDir
  split
  · exact h
  · exact List.mem_append_left _ h

theorem mem_addDir_self (ds : List (List String)) (p : List String) : p ∈ addDir ds p := by
  unfold addDir
  split
  · assumption
  · exact List.mem_append_right _ (List.mem_singleton.2 rfl)

theorem mem_foldl_addDir_of_mem {ds : List (List String)} {q : List String}
    (qs : List (List String)) (h : q ∈ ds) : q ∈ qs.foldl addDir ds := by
  induction qs generalizing ds with
  | nil => exact h
  | cons p ps ih => exact ih (mem_addDir_of_mem p h)

theorem mem_foldl_addDir_of_mem_list {qs : List (List String)} {q : List String}
    (ds : List (List String)) (h : q ∈ qs) : q ∈ qs.foldl addDir ds := by
  induction qs generalizing ds with
  | nil => cases h
  | cons p ps ih =>
    rw [List.foldl_cons]
    rcases List.mem_cons.1 h with h1 | h2
    · exact mem_foldl_addDir_of_mem ps (h1 ▸ mem_addDir_self ds p)
    · exact ih (addDir ds p) h2

theorem mem_foldl_addDir_iff (qs ds : List (List String)) (q : List String) :
    q ∈ qs.foldl addDir ds ↔ q ∈ ds ∨ q ∈ qs := by
  constructor
  · intro h
    induction qs generalizing ds with
    | nil => exact Or.inl h
    | cons p ps ih =>
      rw [List.foldl_cons] at h
      rcases ih (addDir ds p) h with h1 | h2
      · unfold addDir at h1
        split at h1
        · exact Or.inl h1
        · rcases List.mem_append.1 h1 with ha | hb
          · exact Or.inl ha
          · exact Or.inr (List.mem_cons.2 (Or.inl (List.mem_singleton.1 hb)))
      · exact Or.inr (List.mem_cons.2 (Or.inr h2))
  · intro h
    rcases h with h | h
    · exact mem_foldl_addDir_of_mem qs h
    · exact mem_foldl_addDir_of_mem_list ds h

theorem foldl_addDir_of_subset {qs ds : List (List String)}
    (h : ∀ q ∈ qs, q ∈ ds) : qs.foldl addDir ds = ds := by
  induction qs with
  | nil => rfl
  | cons p ps ih =>
    rw [List.foldl_cons]
    have hp : addDir ds p = ds := by
      unfold addDir
      rw [if_pos (h p (List.mem_cons_self p ps))]
    rw [hp]
    exact ih (fun q hq => h q (List.mem_cons.2 (Or.inr hq)))

/-! ### File-lookup lemmas -/

theorem find?_cons_false {α : Type} (f : α → Bool) (a : α) (l : List α) (h : f a = false) :
    (a :: l).find? f = l.find? f := by
  rw [List.find?_cons, h]

theorem find?_cons_true {α : Type} (f : α → Bool) (a : α) (l : List α) (h : f a = true) :
    (a :: l).find? f = some a := by
  rw [List.find?_cons, h]

theorem find?_filter_of_key_ne {l : List (List String × String)} {p p' : List String}
    (h : p' ≠ p) :
    (l.filter (fun e => decide (e.1 ≠ p))).find? (fun e => decide (e.1 = p'))
      = l.find? (fun e => decide (e.1 = p')) := by
  induction l with
  | nil => rfl
  | cons e rest ih =>
    rw [List.filter_cons]
    by_cases he : e.1 = p
    · rw [if_neg (by simp [he])]
      have hpred : (decide (e.1 = p') : Bool) = false := by
        simp only [decide_eq_false_iff_not, he]
        intro hh
        exact h hh.symm
      rw [find?_cons_false (fun e => decide (e.1 = p')) e rest hpred, ih]
    · rw [if_pos (by simp [he])]
      by_cases hp' : e.1 = p'
      · rw [find?_cons_true (fun e => decide (e.1 = p')) e
            (rest.filter (fun e => decide (e.1 ≠ p))) (by simp [hp']),
          find?_cons_true (fun e => decide (e.1 = p')) e rest (by simp [hp'])]
      · rw [find?_cons_false (fun e => decide (e.1 = p')) e
            (rest.filter (fun e => decide (e.1 ≠ p))) (by simp [hp']),
          find?_cons_false (fun e => decide (e.1 = p')) e rest (by simp [hp']), ih]

theorem readFile_writeFile_self (fs : FSState) (p : List String) (c : String) :
    readFile (writeFile fs p c) p = some c := by
  unfold readFile writeFile
  rw [List.reverse_append]
  simp

theorem readFile_writeFile_ne (fs : FSState) (p : List String) (c : String)
    (p' : List String) (h : p' ≠ p) :
    readFile (writeFile fs p c) p' = readFile fs p' := by
  unfold readFile writeFile
  rw [List.reverse_append]
  have h1 : ([(p, c)] : List (List String × String)).reverse = [(p, c)] := rfl
  rw [h1, List.singleton_append]
  have h2 : (List.find? (fun e => decide (e.1 = p')) ((p, c) :: (fs.files.filter
      (fun e => decide (e.1 ≠ p))).reverse))
      = List.find? (fun e => decide (e.1 = p')) ((fs.files.filter
      (fun e => decide (e.1 ≠ p))).reverse) := by
    refine find?_cons_false (fun e => decide (e.1 = p')) (p, c) _ ?_
    simp only [decide_eq_false_iff_not]
    intro hh
    exact h hh.symm
  rw [h2, ← List.filter_reverse, find?_filter_of_key_ne h]

theorem readFile_create_directories (fs : FSState) (p q : List String) :
    readFile (create_directories fs p) q = readFile fs q := rfl

theorem dirs_writer_write (out : List String) (fs : FSState) (r : PageResult) :
    (writer_write out fs r).dirs = (ancestorsOf (pageDirOf out r)).foldl addDir fs.dirs := rfl

theorem take_mem_ancestorsOf (p : List String) (i : Nat) (h : i < p.length) :
    p.take (i + 1) ∈ ancestorsOf p := by
  unfold ancestorsOf
  exact List.mem_map.2 ⟨i, List.mem_range.2 h, rfl⟩

theorem self_mem_ancestorsOf (p : List String) (h : p ≠ []) : p ∈ ancestorsOf p := by
  have hl : 0 < p.length := List.length_pos.2 h
  have := take_mem_ancestorsOf p (p.length - 1) (by omega)
  have he : p.length - 1 + 1 = p.length := by omega
  rw [he, List.take_length] at this
  exact this

/-- C4: for every result the writer consumes it creates, idempotently and
with parents, the directory `output_root/document_name/page_index` and
writes the text verbatim to `text_layer.txt` there, overwriting any
previous contents and touching no other file; the document name used by
`process_pdf` is the filename's stem (base name without extension). -/
theorem claim_C4_writer_output (out : List String) (fs : FSState) (r : PageResult) :
    readFile (writer_write out fs r) (textFileOf out r) = some r.text
    ∧ pageDirOf out r ∈ (writer_write out fs r).dirs
    ∧ (∀ i : Nat, i < (pageDirOf out r).length →
        (pageDirOf out r).take (i + 1) ∈ (writer_write out fs r).dirs)
    ∧ create_directories (create_directories fs (pageDirOf out r)) (pageDirOf out r)
        = create_directories fs (pageDirOf out r)
    ∧ pageDirOf out r = out ++ [r.pdf_name, to_string_model r.page_id]
    ∧ (∀ p' : List String, p' ≠ textFileOf out r →
        readFile (writer_write out fs r) p' = readFile fs p')
    ∧ (∀ (e : DirEntry) (d : PopplerDoc) (tc : Int), e.doc = some d →
        numWorkers tc ≠ 0 →
        process_pdf_model out tc fs e
          = (writer_run out fs (documentResults d (filenameStem e.filename)), []))
    ∧ (∀ (ps : Option PopplerPage) (nm : String) (pid : Nat),
        (process_page ps nm pid).pdf_name = nm) := by
  refine ⟨?_, ?_, ?_, ?_, rfl, ?_, ?_, ?_⟩
  · exact readFile_writeFile_self (create_directories fs (pageDirOf out r))
      (textFileOf out r) r.text
  · rw [dirs_writer_write]
    exact mem_foldl_addDir_of_mem_list fs.dirs
      (self_mem_ancestorsOf (pageDirOf out r) (by simp [pageDirOf]))
  · intro i hi
    rw [dirs_writer_write]
    exact mem_foldl_addDir_of_mem_list fs.dirs (take_mem_ancestorsOf (pageDirOf out r) i hi)
  · have hsub : ∀ q ∈ ancestorsOf (pageDirOf out r),
        q ∈ (ancestorsOf (pageDirOf out r)).foldl addDir fs.dirs :=
      fun q hq => mem_foldl_addDir_of_mem_list fs.dirs hq
    simp only [create_directories]
    rw [foldl_addDir_of_subset hsub]
  · intro p' hne
    have h1 : readFile (writer_write out fs r) p'
        = readFile (create_directories fs (pageDirOf out r)) p' :=
      readFile_writeFile_ne (create_directories fs (pageDirOf out r))
        (textFileOf out r) r.text p' hne
    rw [h1, readFile_create_directories]
  · intro e d tc he hn
    simp [process_pdf_model, he, hn]
  · intro ps nm pid
    cases ps <;> rfl

/-- Witness for C4: concrete page result written under a concrete root. -/
theorem claim_C4_witness :
    readFile (writer_write ["out"] emptyFS demoRes0) (textFileOf ["out"] demoRes0)
        = some "Hello"
    ∧ pageDirOf ["out"] demoRes0 ∈ (writer_write ["out"] emptyFS demoRes0).dirs := by
  have h := claim_C4_writer_output ["out"] emptyFS demoRes0
  exact ⟨h.1, h.2.1⟩

/-- C7: a document that fails to load is reported, leaves the filesystem
untouched (no output directory for it, no pipeline run), and the batch
loop continues with the remaining entries. -/
theorem claim_C7_document_open_failure (out : List String) (tc : Int) (fs : FSState)
    (e : DirEntry) (rest : List DirEntry) (he : e.doc = none) :
    process_pdf_model out tc fs e = (fs, ["Failed to open PDF: " ++ e.filename])
    ∧ (entrySelected e = true →
        process_directory_model out tc (e :: rest) fs
          = ((process_directory_model out tc rest fs).1,
              ("Failed to open PDF: " ++ e.filename)
                :: (process_directory_model out tc rest fs).2)) := by
  constructor
  · simp [process_pdf_model, he]
  · intro hsel
    simp [process_directory_model, hsel, process_pdf_model, he]

/-- Witness for C7 at a concrete failing entry. -/
theorem claim_C7_witness :
    demoFailEntry.doc = none
    ∧ process_pdf_model ["out"] 2 emptyFS demoFailEntry
        = (emptyFS, ["Failed to open PDF: bad.pdf"]) := by
  refine ⟨rfl, ?_⟩
  exact (claim_C7_document_open_failure ["out"] 2 emptyFS demoFailEntry [] rfl).1

/-- C10: an entry is processed exactly when it is a regular file whose
extension equals ".pdf" (case-sensitively); unselected entries are
silently skipped, and a ".PDF" file is not selected. -/
theorem claim_C10_extension_filter (e : DirEntry) :
    (entrySelected e = true
        ↔ (e.is_regular_file = true ∧ filenameExtension e.filename = ".pdf"))
    ∧ (∀ (out : List String) (tc : Int) (fs : FSState) (rest : List DirEntry),
        entrySelected e = false →
        process_directory_model out tc (e :: rest) fs
          = process_directory_model out tc rest fs)
    ∧ (∀ (out : List String) (tc : Int) (fs : FSState) (rest : List DirEntry),
        entrySelected e = true →
        process_directory_model out tc (e :: rest) fs
          = ((process_directory_model out tc rest (process_pdf_model out tc fs e).1).1,
              (process_pdf_model out tc fs e).2
                ++ (process_directory_model out tc rest (process_pdf_model out tc fs e).1).2))
    ∧ filenameExtension "doc.PDF" = ".PDF"
    ∧ entrySelected demoUpperEntry = false := by
  refine ⟨?_, ?_, ?_, by decide, by decide⟩
  · simp [entrySelected, Bool.and_eq_true, beq_iff_eq]
  · intro out tc fs rest hsel
    simp [process_directory_model, hsel]
  · intro out tc fs rest hsel
    simp [process_directory_model, hsel]

/-- Witness for C10: a lowercase ".pdf" regular file is selected, its
uppercase counterpart is not. -/
theorem claim_C10_witness :
    entrySelected demoEntry = true ∧ entrySelected demoUpperEntry = false := by
  constructor
  · exact ((claim_C10_extension_filter demoEntry).1).2 ⟨rfl, by decide⟩
  · exact (claim_C10_extension_filter demoUpperEntry).2.2.2.2

/-- C5 counterexample, refuting both universally quantified halves of the
exit-1 clause.  First part: five arguments is a wrong argument count (the
usage is exactly three user arguments), yet the run exits 0, because
`main` only rejects `argc < 4` and silently ignores the extra argument.
Second part: the input directory does not exist, yet the process does not
exit 1: `std::stoi("2147483648")` overflows `int` and the uncaught
`std::out_of_range` aborts the process (result `none`) before the
directory check at line 171 is reached. -/
theorem claim_C5_counterexample :
    main_model ["prog", "in", "out", "2", "extra"] true true []
      = some (0, create_directories emptyFS ["out"], [])
    ∧ main_model ["prog", "in", "out", "2147483648"] false true [] = none := by decide

/-- C5 (amended): the process exits 1 when fewer than three user
arguments are supplied, or when (the thread-count argument having parsed
as an in-range `int`) the input directory does not exist or is not a
directory, producing no output in those cases; extra arguments beyond
the third are ignored; a thread-count argument that is non-numeric or
out of `int` range aborts via an uncaught exception instead of a normal
exit, before the directory check; on normal completion the exit code is
0, including runs in which individual documents fail to open. -/
theorem claim_C5_exit_codes_amended (args : List String) (ex isdir : Bool)
    (entries : List DirEntry) :
    (args.length < 4 → main_model args ex isdir entries = some (1, emptyFS, [usageMsg]))
    ∧ (∀ tc : Int, stoiModel (args.getD 3 "") = some tc → 4 ≤ args.length →
        (ex = false ∨ isdir = false) →
        main_model args ex isdir entries = some (1, emptyFS, [dirErrMsg]))
    ∧ (∀ tc : Int, stoiModel (args.getD 3 "") = some tc → 4 ≤ args.length →
        ex = true → isdir = true →
        (main_model args ex isdir entries).map (fun x => x.1) = some 0)
    ∧ (stoiModel (args.getD 3 "") = none → 4 ≤ args.length →
        main_model args ex isdir entries = none) := by
  refine ⟨?_, ?_, ?_, ?_⟩
  · intro h
    simp [main_model, h]
  · intro tc hst hlen hbad
    have hnlt : ¬ args.length < 4 := by omega
    rw [List.getD_eq_getElem?_getD] at hst
    rcases hbad with hb | hb <;> simp [main_model, hnlt, hst, hb]
  · intro tc hst hlen hex hdir
    have hnlt : ¬ args.length < 4 := by omega
    rw [List.getD_eq_getElem?_getD] at hst
    simp [main_model, hnlt, hst, hex, hdir]
  · intro hst hlen
    have hnlt : ¬ args.length < 4 := by omega
    rw [List.getD_eq_getElem?_getD] at hst
    simp [main_model, hnlt, hst]

/-- Witness for the amended C5 at concrete invocations, including a batch
containing a document that fails to open and an out-of-range thread
count. -/
theorem claim_C5_witness :
    main_model ["prog"] true true [] = some (1, emptyFS, [usageMsg])
    ∧ main_model ["prog", "in", "out", "3"] false true [] = some (1, emptyFS, [dirErrMsg])
    ∧ (main_model ["prog", "in", "out", "3"] true true [demoFailEntry]).map
        (fun x => x.1) = some 0
    ∧ main_model ["prog", "in", "out", "2147483648"] true true [] = none := by
  refine ⟨?_, ?_, ?_, ?_⟩
  · exact (claim_C5_exit_codes_amended ["prog"] true true []).1 (by decide)
  · exact (claim_C5_exit_codes_amended ["prog", "in", "out", "3"] false true []).2.1 3
      (by decide) (by decide) (Or.inl rfl)
  · exact (claim_C5_exit_codes_amended ["prog", "in", "out", "3"] true true
      [demoFailEntry]).2.2.1 3 (by decide) (by decide) rfl rfl
  · exact (claim_C5_exit_codes_amended ["prog", "in", "out", "2147483648"] true true
      []).2.2.2 (by decide) (by decide)

/-! ### Pipeline helper lemmas -/

theorem getElem?_split {α : Type} {l : List α} {i : Nat} {a : α} (h : l[i]? = some a) :
    ∃ A B : List α, l = A ++ a :: B ∧ ∀ b : α, l.set i b = A ++ b :: B :=
  ⟨l.take i, l.drop (i + 1), list_split_of_getElem? h, fun b => list_set_split h b⟩

theorem workingResults_append (l1 l2 : List WStatus) :
    workingResults (l1 ++ l2) = workingResults l1 ++ workingResults l2 :=
  List.filterMap_append l1 l2 _

theorem workingResults_cons_idle (l : List WStatus) :
    workingResults (WStatus.idle :: l) = workingResults l := rfl

theorem workingResults_cons_done (l : List WStatus) :
    workingResults (WStatus.done :: l) = workingResults l := rfl

theorem workingResults_cons_working (r : PageResult) (l : List WStatus) :
    workingResults (WStatus.working r :: l) = r :: workingResults l := rfl

theorem workingResults_replicate_idle (n : Nat) :
    workingResults (List.replicate n WStatus.idle) = [] := by
  induction n with
  | zero => rfl
  | succ m ih => rw [List.replicate_succ, workingResults_cons_idle, ih]

theorem workingResults_eq_nil_of_done {ws : List WStatus}
    (h : ∀ st ∈ ws, st = WStatus.done) : workingResults ws = [] := by
  induction ws with
  | nil => rfl
  | cons st l ih =>
    have hst := h st (List.mem_cons_self st l)
    subst hst
    rw [workingResults_cons_done]
    exact ih (fun x hx => h x (List.mem_cons.2 (Or.inr hx)))

theorem countDone_append (l1 l2 : List WStatus) :
    countDone (l1 ++ l2) = countDone l1 + countDone l2 :=
  List.countP_append _ _ _

theorem countDone_cons_done (l : List WStatus) :
    countDone (WStatus.done :: l) = countDone l + 1 := by
  unfold countDone
  rw [List.countP_cons]
  simp

theorem countDone_cons_idle (l : List WStatus) :
    countDone (WStatus.idle :: l) = countDone l := by
  unfold countDone
  rw [List.countP_cons]
  simp

theorem countDone_cons_working (r : PageResult) (l : List WStatus) :
    countDone (WStatus.working r :: l) = countDone l := by
  unfold countDone
  rw [List.countP_cons]
  simp

theorem canonical_succ_of_ge (doc : PopplerDoc) (name : String) {c : Nat}
    (h : doc.pages ≤ c) :
    canonicalResults doc name (c + 1) = canonicalResults doc name c := by
  unfold canonicalResults
  have e : min (c + 1) doc.pages = min c doc.pages := by omega
  rw [e]

theorem canonical_succ_of_lt_some (doc : PopplerDoc) (name : String) {c : Nat}
    {p : PopplerPage} (h : c < doc.pages) (hp : doc.create_page c = some p) :
    canonicalResults doc name (c + 1)
      = canonicalResults doc name c ++ [process_page (some p) name c] := by
  unfold canonicalResults
  have e1 : min (c + 1) doc.pages = c + 1 := by omega
  have e2 : min c doc.pages = c := by omega
  rw [e1, e2, List.range_succ, List.filterMap_append]
  simp [hp]

theorem canonical_succ_of_lt_none (doc : PopplerDoc) (name : String) {c : Nat}
    (h : c < doc.pages) (hp : doc.create_page c = none) :
    canonicalResults doc name (c + 1) = canonicalResults doc name c := by
  unfold canonicalResults
  have e1 : min (c + 1) doc.pages = c + 1 := by omega
  have e2 : min c doc.pages = c := by omega
  rw [e1, e2, List.range_succ, List.filterMap_append]
  simp [hp]

theorem canonical_of_ge (doc : PopplerDoc) (name : String) {n : Nat}
    (h : doc.pages ≤ n) :
    canonicalResults doc name n = documentResults doc name := by
  unfold documentResults canonicalResults
  have e : min n doc.pages = min doc.pages doc.pages := by omega
  rw [e]

theorem perm_insert_middle {α : Type} (x y z : List α) (a : α) :
    List.Perm (x ++ (y ++ a :: z)) (a :: (x ++ (y ++ z))) := by
  rw [← List.append_assoc, ← List.append_assoc]
  exact List.perm_middle

/-! ### The pipeline invariant -/

theorem pipeInv_init (doc : PopplerDoc) (name : String) (w : Nat) :
    PipeInv doc name w (initPipe w) := by
  refine ⟨?_, ?_, ?_, ?_, ?_, ?_, ?_⟩
  · simp [initPipe]
  · simp [initPipe]
  · intro hf
    simp [initPipe] at hf
  · intro hex
    obtain ⟨st, hmem, hst⟩ := hex
    have he : st = WStatus.idle := List.eq_of_mem_replicate hmem
    rw [he] at hst
    exact WStatus.noConfusion hst
  · intro hwd
    simp [initPipe] at hwd
  · show List.Perm ([] ++ [] ++ workingResults (List.replicate w WStatus.idle))
      (canonicalResults doc name 0)
    rw [workingResults_replicate_idle]
    have e : canonicalResults doc name 0 = [] := by
      unfold canonicalResults
      simp
    rw [e]
    exact List.Perm.refl _
  · show List.map Prod.snd [] = List.range (min 0 doc.pages)
    simp

theorem pipeInv_step (doc : PopplerDoc) (name : String) (w : Nat) {s t : PipeState}
    (hInv : PipeInv doc name w s) (hstep : Step doc name s t) : PipeInv doc name w t := by
  obtain ⟨h1, h2, h3, h4, h5, h6, h7⟩ := hInv
  cases hstep with
  | fetchExit wi hw hge =>
    obtain ⟨A, B, hsplit, hsetf⟩ := getElem?_split hw
    refine ⟨?_, ?_, ?_, ?_, ?_, ?_, ?_⟩
    · show (s.workers.set wi WStatus.done).length = w
      rw [List.length_set]
      exact h1
    · show s.counter + 1 ≤ doc.pages + countDone (s.workers.set wi WStatus.done)
      rw [hsetf WStatus.done, countDone_append, countDone_cons_done]
      rw [hsplit, countDone_append, countDone_cons_idle] at h2
      omega
    · intro hf
      exfalso
      have hf2 : s.chan.finished = true := hf
      have hmem : WStatus.idle ∈ s.workers := by
        rw [hsplit]
        exact List.mem_append_right A (List.mem_cons_self _ _)
      exact WStatus.noConfusion (h3 hf2 WStatus.idle hmem)
    · intro _
      have hp : doc.pages ≤ s.counter := hge
      show doc.pages ≤ s.counter + 1
      omega
    · intro hwd
      exact h5 hwd
    · show List.Perm
        (s.written ++ s.chan.queue ++ workingResults (s.workers.set wi WStatus.done))
        (canonicalResults doc name (s.counter + 1))
      rw [canonical_succ_of_ge doc name hge, hsetf WStatus.done, workingResults_append,
        workingResults_cons_done]
      rw [hsplit, workingResults_append, workingResults_cons_idle] at h6
      exact h6
    · show s.claims.map Prod.snd = List.range (min (s.counter + 1) doc.pages)
      have e : min (s.counter + 1) doc.pages = min s.counter doc.pages := by omega
      rw [e]
      exact h7
  | fetchOpenOk wi p hw hlt hcp =>
    obtain ⟨A, B, hsplit, hsetf⟩ := getElem?_split hw
    refine ⟨?_, ?_, ?_, ?_, ?_, ?_, ?_⟩
    · show (s.workers.set wi (WStatus.working (process_page (some p) name s.counter))).length
        = w
      rw [List.length_set]
      exact h1
    · show s.counter + 1 ≤ doc.pages
        + countDone (s.workers.set wi (WStatus.working (process_page (some p) name s.counter)))
      rw [hsetf _, countDone_append, countDone_cons_working]
      rw [hsplit, countDone_append, countDone_cons_idle] at h2
      omega
    · intro hf
      exfalso
      have hf2 : s.chan.finished = true := hf
      have hmem : WStatus.idle ∈ s.workers := by
        rw [hsplit]
        exact List.mem_append_right A (List.mem_cons_self _ _)
      exact WStatus.noConfusion (h3 hf2 WStatus.idle hmem)
    · intro hex
      show doc.pages ≤ s.counter + 1
      obtain ⟨st, hmem, hst⟩ := hex
      have hmem2 : st ∈ s.workers.set wi (WStatus.working (process_page (some p) name s.counter)) :=
        hmem
      rw [hsetf _] at hmem2
      have hm : st ∈ s.workers := by
        rw [hsplit]
        rcases List.mem_append.1 hmem2 with hA | hC
        · exact List.mem_append_left _ hA
        · rcases List.mem_cons.1 hC with he | hB
          · rw [hst] at he
            exact WStatus.noConfusion he
          · exact List.mem_append_right _ (List.mem_cons.2 (Or.inr hB))
      have := h4 ⟨st, hm, hst⟩
      omega
    · intro hwd
      exact h5 hwd
    · show List.Perm
        (s.written ++ s.chan.queue
          ++ workingResults (s.workers.set wi (WStatus.working (process_page (some p) name s.counter))))
        (canonicalResults doc name (s.counter + 1))
      rw [canonical_succ_of_lt_some doc name hlt hcp, hsetf _, workingResults_append,
        workingResults_cons_working]
      rw [hsplit, workingResults_append, workingResults_cons_idle] at h6
      exact (perm_insert_middle (s.written ++ s.chan.queue) (workingResults A)
        (workingResults B) _).trans ((h6.cons _).trans (List.perm_append_singleton _ _).symm)
    · show (s.claims ++ [(wi, s.counter)]).map Prod.snd
        = List.range (min (s.counter + 1) doc.pages)
      rw [List.map_append, h7]
      have e1 : min s.counter doc.pages = s.counter := by omega
      have e2 : min (s.counter + 1) doc.pages = s.counter + 1 := by omega
      rw [e1, e2, List.range_succ]
      rfl
  | fetchOpenFail wi hw hlt hcp =>
    refine ⟨h1, ?_, h3, ?_, h5, ?_, ?_⟩
    · show s.counter + 1 ≤ doc.pages + countDone s.workers
      omega
    · intro hex
      show doc.pages ≤ s.counter + 1
      have := h4 hex
      omega
    · show List.Perm (s.written ++ s.chan.queue ++ workingResults s.workers)
        (canonicalResults doc name (s.counter + 1))
      rw [canonical_succ_of_lt_none doc name hlt hcp]
      exact h6
    · show (s.claims ++ [(wi, s.counter)]).map Prod.snd
        = List.range (min (s.counter + 1) doc.pages)
      rw [List.map_append, h7]
      have e1 : min s.counter doc.pages = s.counter := by omega
      have e2 : min (s.counter + 1) doc.pages = s.counter + 1 := by omega
      rw [e1, e2, List.range_succ]
      rfl
  | pushResult wi r hw =>
    obtain ⟨A, B, hsplit, hsetf⟩ := getElem?_split hw
    refine ⟨?_, ?_, ?_, ?_, ?_, ?_, h7⟩
    · show (s.workers.set wi WStatus.idle).length = w
      rw [List.length_set]
      exact h1
    · show s.counter ≤ doc.pages + countDone (s.workers.set wi WStatus.idle)
      rw [hsetf WStatus.idle, countDone_append, countDone_cons_idle]
      rw [hsplit, countDone_append, countDone_cons_working] at h2
      omega
    · intro hf
      exfalso
      have hf2 : s.chan.finished = true := hf
      have hmem : WStatus.working r ∈ s.workers := by
        rw [hsplit]
        exact List.mem_append_right A (List.mem_cons_self _ _)
      exact WStatus.noConfusion (h3 hf2 (WStatus.working r) hmem)
    · intro hex
      show doc.pages ≤ s.counter
      obtain ⟨st, hmem, hst⟩ := hex
      have hmem2 : st ∈ s.workers.set wi WStatus.idle := hmem
      rw [hsetf WStatus.idle] at hmem2
      have hm : st ∈ s.workers := by
        rw [hsplit]
        rcases List.mem_append.1 hmem2 with hA | hC
        · exact List.mem_append_left _ hA
        · rcases List.mem_cons.1 hC with he | hB
          · rw [hst] at he
            exact WStatus.noConfusion he
          · exact List.mem_append_right _ (List.mem_cons.2 (Or.inr hB))
      exact h4 ⟨st, hm, hst⟩
    · intro hwd
      exfalso
      have hwd2 : s.writerDone = true := hwd
      obtain ⟨hfin, _⟩ := h5 hwd2
      have hmem : WStatus.working r ∈ s.workers := by
        rw [hsplit]
        exact List.mem_append_right A (List.mem_cons_self _ _)
      exact WStatus.noConfusion (h3 hfin (WStatus.working r) hmem)
    · show List.Perm
        (s.written ++ (s.chan.queue ++ [r]) ++ workingResults (s.workers.set wi WStatus.idle))
        (canonicalResults doc name s.counter)
      rw [hsetf WStatus.idle, workingResults_append, workingResults_cons_idle]
      rw [hsplit, workingResults_append, workingResults_cons_working] at h6
      refine List.Perm.trans ?_ ((perm_insert_middle (s.written ++ s.chan.queue)
        (workingResults A) (workingResults B) r).symm.trans h6)
      have e : s.written ++ (s.chan.queue ++ [r]) ++ (workingResults A ++ workingResults B)
          = (s.written ++ s.chan.queue) ++ (r :: (workingResults A ++ workingResults B)) := by
        simp
      rw [e]
      exact List.perm_middle
  | finish hall hnf =>
    refine ⟨h1, h2, ?_, h4, ?_, ?_, h7⟩
    · intro _
      exact hall
    · intro hwd
      have hwd2 : s.writerDone = true := hwd
      obtain ⟨_, hq⟩ := h5 hwd2
      exact ⟨rfl, hq⟩
    · show List.Perm (s.written ++ s.chan.queue ++ workingResults s.workers)
        (canonicalResults doc name s.counter)
      exact h6
  | writerPop r hwd hpop =>
    obtain ⟨hq, hfin⟩ := pop_some_dest hpop
    refine ⟨h1, h2, ?_, h4, ?_, ?_, h7⟩
    · intro hf
      have hf2 : (s.chan.pop).2.finished = true := hf
      rw [hfin] at hf2
      exact h3 hf2
    · intro h
      have h2' : s.writerDone = true := h
      rw [hwd] at h2'
      exact Bool.noConfusion h2'
    · show List.Perm
        ((s.written ++ [r]) ++ (s.chan.pop).2.queue ++ workingResults s.workers)
        (canonicalResults doc name s.counter)
      rw [hq] at h6
      have e : (s.written ++ [r]) ++ (s.chan.pop).2.queue
          = s.written ++ (r :: (s.chan.pop).2.queue) := by
        simp
      rw [e]
      exact h6
  | writerEnd hwd hready hpop =>
    have hq : s.chan.queue = [] := queue_eq_nil_of_pop_none hpop
    have hfin : s.chan.finished = true := by
      unfold PageResultQueue.popReady at hready
      rw [hq] at hready
      simpa using hready
    exact ⟨h1, h2, h3, h4, fun _ => ⟨hfin, hq⟩, h6, h7⟩

theorem pipeInv_reachable (doc : PopplerDoc) (name : String) (w : Nat) {s : PipeState}
    (h : Reachable doc name w s) : PipeInv doc name w s := by
  unfold Reachable at h
  induction h with
  | refl => exact pipeInv_init doc name w
  | tail _ hstep ih => exact pipeInv_step doc name w ih hstep

theorem countWorking_append (l1 l2 : List WStatus) :
    countWorking (l1 ++ l2) = countWorking l1 + countWorking l2 :=
  List.countP_append _ _ _

theorem countWorking_cons_idle (l : List WStatus) :
    countWorking (WStatus.idle :: l) = countWorking l := by
  unfold countWorking
  rw [List.countP_cons]
  simp [isWorkingB]

theorem countWorking_cons_done (l : List WStatus) :
    countWorking (WStatus.done :: l) = countWorking l := by
  unfold countWorking
  rw [List.countP_cons]
  simp [isWorkingB]

theorem countWorking_cons_working (r : PageResult) (l : List WStatus) :
    countWorking (WStatus.working r :: l) = countWorking l + 1 := by
  unfold countWorking
  rw [List.countP_cons]
  simp [isWorkingB]

theorem mem_of_getElem? {α : Type} {l : List α} {i : Nat} {a : α}
    (h : l[i]? = some a) : a ∈ l := by
  obtain ⟨hlt, he⟩ := List.getElem?_eq_some.1 h
  exact he ▸ List.getElem_mem hlt

/-- Every non-final reachable state has an enabled step: the pipeline
never deadlocks. -/
theorem pipe_progress (doc : PopplerDoc) (name : String) (w : Nat) (s : PipeState)
    (hInv : PipeInv doc name w s) (hwd : s.writerDone = false) :
    ∃ t : PipeState, Step doc name s t := by
  by_cases hidle : ∃ i : Nat, s.workers[i]? = some WStatus.idle
  · obtain ⟨i, hi⟩ := hidle
    by_cases hge : doc.pages ≤ s.counter
    · exact ⟨_, Step.fetchExit s i hi hge⟩
    · have hlt : s.counter < doc.pages := by omega
      cases hcp : doc.create_page s.counter with
      | some p => exact ⟨_, Step.fetchOpenOk s i p hi hlt hcp⟩
      | none => exact ⟨_, Step.fetchOpenFail s i hi hlt hcp⟩
  · by_cases hwork : ∃ i : Nat, ∃ r : PageResult, s.workers[i]? = some (WStatus.working r)
    · obtain ⟨i, r, hi⟩ := hwork
      exact ⟨_, Step.pushResult s i r hi⟩
    · have hall : ∀ st ∈ s.workers, st = WStatus.done := by
        intro st hmem
        obtain ⟨i, hi⟩ := exists_getElem?_of_mem hmem
        cases st with
        | idle => exact absurd ⟨i, hi⟩ hidle
        | working r => exact absurd ⟨i, r, hi⟩ hwork
        | done => rfl
      cases hf : s.chan.finished with
      | false => exact ⟨_, Step.finish s hall hf⟩
      | true =>
        cases hq : s.chan.queue with
        | cons r rest =>
          have hpop : (s.chan.pop).1 = some r := by rw [pop_of_cons hq]
          exact ⟨_, Step.writerPop s r hwd hpop⟩
        | nil =>
          have hpop : (s.chan.pop).1 = none := by rw [pop_of_nil hq]
          have hready : s.chan.popReady = true := by
            unfold PageResultQueue.popReady
            rw [hq, hf]
            rfl
          exact ⟨_, Step.writerEnd s hwd hready hpop⟩

/-- The ranking function strictly decreases along every step. -/
theorem measure_decreasing (doc : PopplerDoc) (name : String) (w : Nat) {s t : PipeState}
    (hInv : PipeInv doc name w s) (hstep : Step doc name s t) :
    measureOf doc w t < measureOf doc w s := by
  obtain ⟨h1, h2, h3, h4, h5, h6, h7⟩ := hInv
  cases hstep with
  | fetchExit wi hw hge =>
    obtain ⟨A, B, hsplit, hsetf⟩ := getElem?_split hw
    have hcd : countDone s.workers + 1 ≤ w := by
      rw [hsplit, countDone_append, countDone_cons_idle]
      rw [hsplit] at h1
      have hA : A.countP (fun st => decide (st = WStatus.done)) ≤ A.length :=
        List.countP_le_length _
      have hB : B.countP (fun st => decide (st = WStatus.done)) ≤ B.length :=
        List.countP_le_length _
      unfold countDone
      simp only [List.length_append, List.length_cons] at h1
      omega
    have hcw : countWorking (s.workers.set wi WStatus.done) = countWorking s.workers := by
      rw [hsetf WStatus.done, countWorking_append, countWorking_cons_done,
        hsplit, countWorking_append, countWorking_cons_idle]
    have hbound : s.counter < doc.pages + w := by omega
    show 3 * (doc.pages + w - (s.counter + 1))
        + 2 * countWorking (s.workers.set wi WStatus.done)
        + s.chan.queue.length + (if s.chan.finished then 0 else 1)
        + 2 * (if s.writerDone then 0 else 1)
      < 3 * (doc.pages + w - s.counter) + 2 * countWorking s.workers
        + s.chan.queue.length + (if s.chan.finished then 0 else 1)
        + 2 * (if s.writerDone then 0 else 1)
    rw [hcw]
    omega
  | fetchOpenOk wi p hw hlt hcp =>
    obtain ⟨A, B, hsplit, hsetf⟩ := getElem?_split hw
    have hcw : countWorking
          (s.workers.set wi (WStatus.working (process_page (some p) name s.counter)))
        = countWorking s.workers + 1 := by
      rw [hsetf _, countWorking_append, countWorking_cons_working,
        hsplit, countWorking_append, countWorking_cons_idle]
      omega
    have hbound : s.counter < doc.pages + w := by omega
    show 3 * (doc.pages + w - (s.counter + 1))
        + 2 * countWorking
            (s.workers.set wi (WStatus.working (process_page (some p) name s.counter)))
        + s.chan.queue.length + (if s.chan.finished then 0 else 1)
        + 2 * (if s.writerDone then 0 else 1)
      < 3 * (doc.pages + w - s.counter) + 2 * countWorking s.workers
        + s.chan.queue.length + (if s.chan.finished then 0 else 1)
        + 2 * (if s.writerDone then 0 else 1)
    rw [hcw]
    omega
  | fetchOpenFail wi hw hlt hcp =>
    have hbound : s.counter < doc.pages + w := by omega
    show 3 * (doc.pages + w - (s.counter + 1)) + 2 * countWorking s.workers
        + s.chan.queue.length + (if s.chan.finished then 0 else 1)
        + 2 * (if s.writerDone then 0 else 1)
      < 3 * (doc.pages + w - s.counter) + 2 * countWorking s.workers
        + s.chan.queue.length + (if s.chan.finished then 0 else 1)
        + 2 * (if s.writerDone then 0 else 1)
    omega
  | pushResult wi r hw =>
    obtain ⟨A, B, hsplit, hsetf⟩ := getElem?_split hw
    have hcw : countWorking s.workers = countWorking (s.workers.set wi WStatus.idle) + 1 := by
      rw [hsetf WStatus.idle, countWorking_append, countWorking_cons_idle,
        hsplit, countWorking_append, countWorking_cons_working]
      omega
    have hqlen : (s.chan.push r).queue.length = s.chan.queue.length + 1 := by
      unfold PageResultQueue.push
      simp
    show 3 * (doc.pages + w - s.counter)
        + 2 * countWorking (s.workers.set wi WStatus.idle)
        + (s.chan.push r).queue.length + (if s.chan.finished then 0 else 1)
        + 2 * (if s.writerDone then 0 else 1)
      < 3 * (doc.pages + w - s.counter) + 2 * countWorking s.workers
        + s.chan.queue.length + (if s.chan.finished then 0 else 1)
        + 2 * (if s.writerDone then 0 else 1)
    rw [hqlen, hcw]
    omega
  | finish hall hnf =>
    show 3 * (doc.pages + w - s.counter) + 2 * countWorking s.workers
        + s.chan.queue.length + 0 + 2 * (if s.writerDone then 0 else 1)
      < 3 * (doc.pages + w - s.counter) + 2 * countWorking s.workers
        + s.chan.queue.length + (if s.chan.finished then 0 else 1)
        + 2 * (if s.writerDone then 0 else 1)
    rw [hnf]
    have e1 : (if (false : Bool) then (0 : Nat) else 1) = 1 := rfl
    rw [e1]
    omega
  | writerPop r hwd hpop =>
    obtain ⟨hq, hfin⟩ := pop_some_dest hpop
    have hlen : s.chan.queue.length = (s.chan.pop).2.queue.length + 1 := by
      rw [hq]
      simp
    show 3 * (doc.pages + w - s.counter) + 2 * countWorking s.workers
        + (s.chan.pop).2.queue.length + (if (s.chan.pop).2.finished then 0 else 1)
        + 2 * (if s.writerDone then 0 else 1)
      < 3 * (doc.pages + w - s.counter) + 2 * countWorking s.workers
        + s.chan.queue.length + (if s.chan.finished then 0 else 1)
        + 2 * (if s.writerDone then 0 else 1)
    rw [hfin, hlen]
    omega
  | writerEnd hwd hready hpop =>
    show 3 * (doc.pages + w - s.counter) + 2 * countWorking s.workers
        + s.chan.queue.length + (if s.chan.finished then 0 else 1) + 2 * 0
      < 3 * (doc.pages + w - s.counter) + 2 * countWorking s.workers
        + s.chan.queue.length + (if s.chan.finished then 0 else 1)
        + 2 * (if s.writerDone then 0 else 1)
    rw [hwd]
    have e1 : (if (false : Bool) then (0 : Nat) else 1) = 1 := rfl
    rw [e1]
    omega

theorem pipeInv_steps (doc : PopplerDoc) (name : String) (w : Nat) {n : Nat}
    {s t : PipeState} (hInv : PipeInv doc name w s) (hsteps : Steps doc name n s t) :
    PipeInv doc name w t := by
  induction hsteps with
  | refl _ => exact hInv
  | tail _ hstep ih => exact pipeInv_step doc name w (ih hInv) hstep

/-- Execution length is bounded by the ranking function: every run of the
pipeline is finite. -/
theorem steps_length_le (doc : PopplerDoc) (name : String) (w : Nat) {n : Nat}
    {s t : PipeState} (hInv : PipeInv doc name w s) (hsteps : Steps doc name n s t) :
    n + measureOf doc w t ≤ measureOf doc w s := by
  induction hsteps with
  | refl _ => omega
  | tail hsteps hstep ih =>
    have hmid := pipeInv_steps doc name w hInv hsteps
    have hdec := measure_decreasing doc name w hmid hstep
    have hih := ih hInv
    omega

theorem reach_writerDone_aux (doc : PopplerDoc) (name : String) (w : Nat) :
    ∀ m : Nat, ∀ s : PipeState, measureOf doc w s ≤ m → Reachable doc name w s →
      ∃ t : PipeState, Reachable doc name w t ∧ t.writerDone = true := by
  intro m
  induction m with
  | zero =>
    intro s hm hr
    cases hwd : s.writerDone with
    | true => exact ⟨s, hr, hwd⟩
    | false =>
      exfalso
      have h2 : 2 ≤ measureOf doc w s := by
        unfold measureOf
        rw [hwd]
        have e1 : (if (false : Bool) then (0 : Nat) else 1) = 1 := rfl
        rw [e1]
        omega
      omega
  | succ m ih =>
    intro s hm hr
    cases hwd : s.writerDone with
    | true => exact ⟨s, hr, hwd⟩
    | false =>
      obtain ⟨t, hstep⟩ := pipe_progress doc name w s (pipeInv_reachable doc name w hr) hwd
      have hdec := measure_decreasing doc name w (pipeInv_reachable doc name w hr) hstep
      exact ih t (by omega) (Relation.ReflTransGen.tail hr hstep)

/-- From the initial state the pipeline always reaches a state in which
the writer has received "end". -/
theorem exists_complete (doc : PopplerDoc) (name : String) (w : Nat) :
    ∃ t : PipeState, Reachable doc name w t ∧ t.writerDone = true :=
  reach_writerDone_aux doc name w (measureOf doc w (initPipe w)) (initPipe w)
    (le_refl _) Relation.ReflTransGen.refl

/-- With zero workers nothing is ever claimed, produced or written. -/
theorem reachable_zero_workers (doc : PopplerDoc) (name : String) {s : PipeState}
    (h : Reachable doc name 0 s) :
    s.counter = 0 ∧ s.written = [] ∧ s.chan.queue = [] ∧ s.workers = []
      ∧ s.claims = [] := by
  unfold Reachable at h
  induction h with
  | refl => exact ⟨rfl, rfl, rfl, rfl, rfl⟩
  | tail _ hstep ih =>
    obtain ⟨hc, hwr, hq, hw, hcl⟩ := ih
    cases hstep with
    | fetchExit wi hwi hge =>
      rw [hw] at hwi
      simp at hwi
    | fetchOpenOk wi p hwi hlt hcp =>
      rw [hw] at hwi
      simp at hwi
    | fetchOpenFail wi hwi hlt hcp =>
      rw [hw] at hwi
      simp at hwi
    | pushResult wi r hwi =>
      rw [hw] at hwi
      simp at hwi
    | finish hall hnf =>
      exact ⟨hc, hwr, hq, hw, hcl⟩
    | writerPop r hwd hpop =>
      rw [pop_of_nil hq] at hpop
      exact Option.noConfusion hpop
    | writerEnd hwd hready hpop =>
      exact ⟨hc, hwr, hq, hw, hcl⟩

theorem getElem?_set_self_of_lt {α : Type} (l : List α) (i : Nat) (b : α)
    (h : i < l.length) : (l.set i b)[i]? = some b := by
  rw [List.getElem?_set_self', List.getElem?_eq_getElem h]
  rfl

/-- A complete single-worker execution over `demoDoc` ending in
`demoFinal`. -/
theorem demoReach : Reachable demoDoc "report" 1 demoFinal := by
  unfold Reachable
  apply Relation.ReflTransGen.head
      (Step.fetchOpenOk (initPipe 1) 0 demoPage0 (by decide) (by decide) (by decide))
  apply Relation.ReflTransGen.head (Step.pushResult _ 0 demoRes0 (by decide))
  apply Relation.ReflTransGen.head
      (Step.fetchOpenOk _ 0 demoPage1 (by decide) (by decide) (by decide))
  apply Relation.ReflTransGen.head (Step.pushResult _ 0 demoRes1 (by decide))
  apply Relation.ReflTransGen.head (Step.fetchExit _ 0 (by decide) (by decide))
  apply Relation.ReflTransGen.head (Step.finish _ (by decide) (by decide))
  apply Relation.ReflTransGen.head (Step.writerPop _ demoRes0 (by decide) (by decide))
  apply Relation.ReflTransGen.head (Step.writerPop _ demoRes1 (by decide) (by decide))
  apply Relation.ReflTransGen.head (Step.writerEnd _ (by decide) (by decide) (by decide))
  exact Relation.ReflTransGen.refl

/-- A complete single-worker execution over `demoFailDoc` (page 0 fails
to open) ending in `demoFailFinal`. -/
theorem demoFailReach : Reachable demoFailDoc "report" 1 demoFailFinal := by
  unfold Reachable
  apply Relation.ReflTransGen.head
      (Step.fetchOpenFail (initPipe 1) 0 (by decide) (by decide) (by decide))
  apply Relation.ReflTransGen.head
      (Step.fetchOpenOk _ 0 demoPage1 (by decide) (by decide) (by decide))
  apply Relation.ReflTransGen.head (Step.pushResult _ 0 demoFailRes (by decide))
  apply Relation.ReflTransGen.head (Step.fetchExit _ 0 (by decide) (by decide))
  apply Relation.ReflTransGen.head (Step.finish _ (by decide) (by decide))
  apply Relation.ReflTransGen.head (Step.writerPop _ demoFailRes (by decide) (by decide))
  apply Relation.ReflTransGen.head (Step.writerEnd _ (by decide) (by decide) (by decide))
  exact Relation.ReflTransGen.refl

theorem filterMap_page_id_of_isSome (doc : PopplerDoc) (name : String) :
    ∀ l : List Nat, (∀ i ∈ l, (doc.create_page i).isSome = true) →
      ((l.filterMap
          (fun i => (doc.create_page i).map (fun p => process_page (some p) name i))).map
        PageResult.page_id) = l := by
  intro l
  induction l with
  | nil => intro _; rfl
  | cons i rest ih =>
    intro h
    have hi := h i (List.mem_cons_self i rest)
    obtain ⟨p, hp⟩ := Option.isSome_iff_exists.1 hi
    rw [List.filterMap_cons]
    simp only [hp, Option.map_some']
    rw [List.map_cons, ih (fun x hx => h x (List.mem_cons.2 (Or.inr hx)))]
    rfl

theorem documentResults_map_page_id (doc : PopplerDoc) (name : String)
    (hopen : ∀ i : Nat, i < doc.pages → (doc.create_page i).isSome = true) :
    (documentResults doc name).map PageResult.page_id = List.range doc.pages := by
  unfold documentResults canonicalResults
  rw [min_self]
  exact filterMap_page_id_of_isSome doc name (List.range doc.pages)
    (fun i hi => hopen i (List.mem_range.1 hi))

/-- C1: in any completed run (all workers have exited) of a document
whose pages all open, with at least one worker, the fetch-and-increment
scheme claims every index in `[0, page_count)` exactly once (the claim
history lists exactly `0, 1, ..., P-1`, each claimed by a unique worker),
exactly `P` results are produced (a permutation of the per-page results,
with page indices a permutation of `0..P-1`), a worker exits only when
its claimed index is at least the page count, and whenever an idle worker
claims an index at least the page count it exits. -/
theorem claim_C1_page_claiming (doc : PopplerDoc) (name : String) (w : Nat)
    (hW : 1 ≤ w) (hopen : ∀ i : Nat, i < doc.pages → (doc.create_page i).isSome = true)
    (s : PipeState) (hs : Reachable doc name w s)
    (hdone : ∀ st ∈ s.workers, st = WStatus.done) :
    s.claims.map Prod.snd = List.range doc.pages
    ∧ (∀ w1 w2 pg : Nat, (w1, pg) ∈ s.claims → (w2, pg) ∈ s.claims → w1 = w2)
    ∧ List.Perm (s.written ++ s.chan.queue) (documentResults doc name)
    ∧ (s.written ++ s.chan.queue).length = doc.pages
    ∧ List.Perm ((s.written ++ s.chan.queue).map PageResult.page_id)
        (List.range doc.pages)
    ∧ (∀ t u : PipeState, Step doc name t u → ∀ wi : Nat,
        t.workers[wi]? = some WStatus.idle → u.workers[wi]? = some WStatus.done →
        doc.pages ≤ t.counter)
    ∧ (∀ t : PipeState, ∀ wi : Nat, t.workers[wi]? = some WStatus.idle →
        doc.pages ≤ t.counter →
        Step doc name t
          { t with counter := t.counter + 1, workers := t.workers.set wi WStatus.done }) := by
  obtain ⟨h1, h2, h3, h4, h5, h6, h7⟩ := pipeInv_reachable doc name w hs
  have hne : s.workers ≠ [] := by
    intro he
    rw [he] at h1
    simp at h1
    omega
  obtain ⟨st0, hmem0⟩ := List.exists_mem_of_ne_nil s.workers hne
  have hP : doc.pages ≤ s.counter := h4 ⟨st0, hmem0, hdone st0 hmem0⟩
  have hclaims : s.claims.map Prod.snd = List.range doc.pages := by
    rw [h7]
    have e : min s.counter doc.pages = doc.pages := by omega
    rw [e]
  have hwr : workingResults s.workers = [] := workingResults_eq_nil_of_done hdone
  have hperm : List.Perm (s.written ++ s.chan.queue) (documentResults doc name) := by
    rw [hwr, List.append_nil, canonical_of_ge doc name hP] at h6
    exact h6
  have hmapid : (documentResults doc name).map PageResult.page_id
      = List.range doc.pages := documentResults_map_page_id doc name hopen
  have hlen : (s.written ++ s.chan.queue).length = doc.pages := by
    rw [hperm.length_eq]
    have hl := congrArg List.length hmapid
    rw [List.length_map, List.length_range] at hl
    exact hl
  refine ⟨hclaims, ?_, hperm, hlen, ?_, ?_, ?_⟩
  · intro w1 w2 pg hm1 hm2
    have hnd : (s.claims.map Prod.snd).Nodup := by
      rw [hclaims]
      exact List.nodup_range doc.pages
    have he := List.inj_on_of_nodup_map hnd hm1 hm2 rfl
    exact congrArg Prod.fst he
  · have hm := hperm.map PageResult.page_id
    rw [hmapid] at hm
    exact hm
  · intro t u hstep wi hidle hdone2
    cases hstep with
    | fetchExit wj hw hge => exact hge
    | fetchOpenOk wj p hw hlt hcp =>
      exfalso
      by_cases he : wj = wi
      · subst he
        obtain ⟨hltl, _⟩ := List.getElem?_eq_some.1 hw
        have hd2 : (t.workers.set wj (WStatus.working (process_page (some p) name t.counter)))[wj]?
            = some WStatus.done := hdone2
        rw [getElem?_set_self_of_lt _ _ _ hltl] at hd2
        exact WStatus.noConfusion (Option.some.inj hd2)
      · have hd2 : (t.workers.set wj (WStatus.working (process_page (some p) name t.counter)))[wi]?
            = some WStatus.done := hdone2
        rw [List.getElem?_set_ne he, hidle] at hd2
        exact WStatus.noConfusion (Option.some.inj hd2)
    | fetchOpenFail wj hw hlt hcp =>
      exfalso
      have hd2 : t.workers[wi]? = some WStatus.done := hdone2
      rw [hidle] at hd2
      exact WStatus.noConfusion (Option.some.inj hd2)
    | pushResult wj r hw =>
      exfalso
      by_cases he : wj = wi
      · subst he
        obtain ⟨hltl, _⟩ := List.getElem?_eq_some.1 hw
        have hd2 : (t.workers.set wj WStatus.idle)[wj]? = some WStatus.done := hdone2
        rw [getElem?_set_self_of_lt _ _ _ hltl] at hd2
        exact WStatus.noConfusion (Option.some.inj hd2)
      · have hd2 : (t.workers.set wj WStatus.idle)[wi]? = some WStatus.done := hdone2
        rw [List.getElem?_set_ne he, hidle] at hd2
        exact WStatus.noConfusion (Option.some.inj hd2)
    | finish hall hnf =>
      exfalso
      have hd2 : t.workers[wi]? = some WStatus.done := hdone2
      rw [hidle] at hd2
      exact WStatus.noConfusion (Option.some.inj hd2)
    | writerPop r hwd hpop =>
      exfalso
      have hd2 : t.workers[wi]? = some WStatus.done := hdone2
      rw [hidle] at hd2
      exact WStatus.noConfusion (Option.some.inj hd2)
    | writerEnd hwd hready hpop =>
      exfalso
      have hd2 : t.workers[wi]? = some WStatus.done := hdone2
      rw [hidle] at hd2
      exact WStatus.noConfusion (Option.some.inj hd2)
  · intro t wi hidle hge
    exact Step.fetchExit t wi hidle hge

/-- Witness for C1: the completed demo run claimed pages 0 and 1 exactly
once and produced one result per page. -/
theorem claim_C1_witness :
    demoFinal.claims.map Prod.snd = List.range demoDoc.pages
    ∧ (demoFinal.written ++ demoFinal.chan.queue).length = demoDoc.pages := by
  have h := claim_C1_page_claiming demoDoc "report" 1 (by decide) (by decide)
    demoFinal demoReach (by decide)
  exact ⟨h.1, h.2.2.2.1⟩

/-- C3: the channel can only be finished once every worker has exited
(so all pushes precede `set_finished`); when the writer has received
"end" it has written every pushed result (nothing dropped), and with at
least one worker that is exactly every producible result; the pipeline
never deadlocks, every execution has bounded length, and a state where
the writer has received "end" is always reached. -/
theorem claim_C3_shutdown_protocol (doc : PopplerDoc) (name : String) (w : Nat) :
    (∀ s : PipeState, Reachable doc name w s → s.chan.finished = true →
        ∀ st ∈ s.workers, st = WStatus.done)
    ∧ (∀ s : PipeState, Reachable doc name w s → s.writerDone = true →
        List.Perm s.written (canonicalResults doc name s.counter) ∧ s.chan.queue = [])
    ∧ (∀ s : PipeState, Reachable doc name w s → 1 ≤ w → s.writerDone = true →
        List.Perm s.written (documentResults doc name))
    ∧ (∀ s : PipeState, Reachable doc name w s → s.writerDone = false →
        ∃ t : PipeState, Step doc name s t)
    ∧ (∀ (n : Nat) (s : PipeState), Steps doc name n (initPipe w) s →
        n ≤ measureOf doc w (initPipe w))
    ∧ (∃ s : PipeState, Reachable doc name w s ∧ s.writerDone = true) := by
  have key : ∀ s : PipeState, Reachable doc name w s → s.writerDone = true →
      List.Perm s.written (canonicalResults doc name s.counter) ∧ s.chan.queue = [] := by
    intro s hs hwd
    obtain ⟨h1, h2, h3, h4, h5, h6, h7⟩ := pipeInv_reachable doc name w hs
    obtain ⟨hfin, hq⟩ := h5 hwd
    have hall := h3 hfin
    have hwr : workingResults s.workers = [] := workingResults_eq_nil_of_done hall
    rw [hq, hwr, List.append_nil, List.append_nil] at h6
    exact ⟨h6, hq⟩
  refine ⟨?_, key, ?_, ?_, ?_, exists_complete doc name w⟩
  · intro s hs hf
    exact (pipeInv_reachable doc name w hs).2.2.1 hf
  · intro s hs hW hwd
    obtain ⟨hperm, hq⟩ := key s hs hwd
    obtain ⟨h1, h2, h3, h4, h5, h6, h7⟩ := pipeInv_reachable doc name w hs
    obtain ⟨hfin, _⟩ := h5 hwd
    have hall := h3 hfin
    have hne : s.workers ≠ [] := by
      intro he
      rw [he] at h1
      simp at h1
      omega
    obtain ⟨st0, hmem0⟩ := List.exists_mem_of_ne_nil s.workers hne
    have hP : doc.pages ≤ s.counter := h4 ⟨st0, hmem0, hall st0 hmem0⟩
    rw [canonical_of_ge doc name hP] at hperm
    exact hperm
  · intro s hs hwd
    exact pipe_progress doc name w s (pipeInv_reachable doc name w hs) hwd
  · intro n s hsteps
    have := steps_length_le doc name w (pipeInv_init doc name w) hsteps
    omega

/-- Witness for C3: in the completed demo run the writer wrote exactly
the document's two page results and the channel was drained. -/
theorem claim_C3_witness :
    List.Perm demoFinal.written (documentResults demoDoc "report")
    ∧ demoFinal.chan.queue = [] := by
  have h := claim_C3_shutdown_protocol demoDoc "report" 1
  exact ⟨h.2.2.1 demoFinal demoReach (by decide) rfl,
    (h.2.1 demoFinal demoReach rfl).2⟩

/-- C8: `set_finished` is idempotent on the channel state (and touches
only the flag); moreover once a reachable pipeline state has the channel
finished, no step can enqueue anything further (all workers are done, so
the queue length never grows). -/
theorem claim_C8_set_finished_idempotent (q : PageResultQueue) :
    q.set_finished.set_finished = q.set_finished
    ∧ (q.set_finished).finished = true
    ∧ (q.set_finished).queue = q.queue
    ∧ (∀ (doc : PopplerDoc) (name : String) (w : Nat) (s t : PipeState),
        Reachable doc name w s → s.chan.finished = true → Step doc name s t →
        t.chan.queue.length ≤ s.chan.queue.length) := by
  refine ⟨rfl, rfl, rfl, ?_⟩
  intro doc name w s t hs hf hstep
  have hall := (pipeInv_reachable doc name w hs).2.2.1 hf
  cases hstep with
  | fetchExit wi hw hge =>
    exact WStatus.noConfusion (hall WStatus.idle (mem_of_getElem? hw))
  | fetchOpenOk wi p hw hlt hcp =>
    exact WStatus.noConfusion (hall WStatus.idle (mem_of_getElem? hw))
  | fetchOpenFail wi hw hlt hcp =>
    exact WStatus.noConfusion (hall WStatus.idle (mem_of_getElem? hw))
  | pushResult wi r hw =>
    exact WStatus.noConfusion (hall (WStatus.working r) (mem_of_getElem? hw))
  | finish hall2 hnf =>
    rw [hf] at hnf
    exact Bool.noConfusion hnf
  | writerPop r hwd hpop =>
    obtain ⟨hq, _⟩ := pop_some_dest hpop
    show (s.chan.pop).2.queue.length ≤ s.chan.queue.length
    rw [hq]
    simp
  | writerEnd hwd hready hpop =>
    exact le_refl _

/-- Witness for C8 at a concrete nonempty unfinished channel. -/
theorem claim_C8_witness :
    ({ queue := [demoRes0], finished := false } : PageResultQueue).set_finished.set_finished
      = ({ queue := [demoRes0], finished := false } : PageResultQueue).set_finished :=
  (claim_C8_set_finished_idempotent { queue := [demoRes0], finished := false }).1

/-- C9: with a nonpositive thread count the worker-launch loop runs zero
times, the pipeline still terminates (the coordinator finishes the
channel right after the empty join loop and the writer receives "end"),
nothing is ever claimed, queued or written, and `process_pdf` produces no
page output and no diagnostic for a document that opens. -/
theorem claim_C9_nonpositive_thread_count (tc : Int) (htc : tc ≤ 0) (doc : PopplerDoc)
    (name : String) :
    numWorkers tc = 0
    ∧ (initPipe (numWorkers tc)).workers = []
    ∧ Reachable doc name (numWorkers tc)
        { initPipe 0 with chan := { queue := [], finished := true }, writerDone := true }
    ∧ (∀ s : PipeState, Reachable doc name (numWorkers tc) s →
        s.written = [] ∧ s.chan.queue = [] ∧ s.counter = 0 ∧ s.claims = [])
    ∧ (∀ (out : List String) (fs : FSState) (e : DirEntry) (d : PopplerDoc),
        e.doc = some d → process_pdf_model out tc fs e = (fs, [])) := by
  have h0 : numWorkers tc = 0 := Int.toNat_of_nonpos htc
  refine ⟨h0, ?_, ?_, ?_, ?_⟩
  · rw [h0]
    rfl
  · rw [h0]
    unfold Reachable
    apply Relation.ReflTransGen.head
        (Step.finish (initPipe 0) (fun st hst => absurd hst (List.not_mem_nil st)) (by decide))
    apply Relation.ReflTransGen.head (Step.writerEnd _ (by decide) (by decide) (by decide))
    exact Relation.ReflTransGen.refl
  · rw [h0]
    intro s hs
    obtain ⟨hc, hwr, hq, _, hcl⟩ := reachable_zero_workers doc name hs
    exact ⟨hwr, hq, hc, hcl⟩
  · intro out fs e d he
    have h0' : numWorkers tc = 0 := h0
    simp [process_pdf_model, he, h0']

/-- Witness for C9 at thread count 0 with a loadable document. -/
theorem claim_C9_witness :
    numWorkers 0 = 0
    ∧ process_pdf_model ["out"] 0 emptyFS demoEntry = (emptyFS, []) := by
  have h := claim_C9_nonpositive_thread_count 0 (by decide) demoDoc "report"
  exact ⟨h.1, h.2.2.2.2 ["out"] emptyFS demoEntry demoDoc rfl⟩

/-! ### Decimal-printer injectivity -/

theorem digitsRev_val (fuel : Nat) : ∀ n : Nat, n ≤ fuel →
    digitsVal (digitsRev fuel n) = n := by
  induction fuel with
  | zero =>
    intro n h
    have h0 : n = 0 := by omega
    subst h0
    rfl
  | succ f ih =>
    intro n h
    by_cases h0 : n = 0
    · subst h0
      rfl
    · unfold digitsRev
      rw [if_neg h0]
      show (n % 10) + 10 * digitsVal (digitsRev f (n / 10)) = n
      rw [ih (n / 10) (by omega)]
      omega

theorem digitsRev_lt_ten (fuel : Nat) : ∀ n : Nat, ∀ d ∈ digitsRev fuel n, d < 10 := by
  induction fuel with
  | zero =>
    intro n d hd
    cases hd
  | succ f ih =>
    intro n d hd
    unfold digitsRev at hd
    by_cases h0 : n = 0
    · rw [if_pos h0] at hd
      cases hd
    · rw [if_neg h0] at hd
      rcases List.mem_cons.1 hd with he | hm
      · rw [he]
        omega
      · exact ih (n / 10) d hm

theorem digitChar_inj {d1 d2 : Nat} (h1 : d1 < 10) (h2 : d2 < 10)
    (h : digitChar d1 = digitChar d2) : d1 = d2 := by
  interval_cases d1 <;> interval_cases d2 <;> revert h <;> decide

theorem map_digitChar_inj : ∀ {l1 l2 : List Nat}, (∀ d ∈ l1, d < 10) →
    (∀ d ∈ l2, d < 10) → l1.map digitChar = l2.map digitChar → l1 = l2 := by
  intro l1
  induction l1 with
  | nil =>
    intro l2 _ _ h
    cases l2 with
    | nil => rfl
    | cons d t => simp at h
  | cons d1 t1 ih =>
    intro l2 h1 h2 h
    cases l2 with
    | nil => simp at h
    | cons d2 t2 =>
      simp only [List.map_cons, List.cons.injEq] at h
      obtain ⟨hh, ht⟩ := h
      have hd : d1 = d2 := digitChar_inj (h1 d1 (List.mem_cons_self d1 t1))
        (h2 d2 (List.mem_cons_self d2 t2)) hh
      have htl : t1 = t2 := ih (fun x hx => h1 x (List.mem_cons.2 (Or.inr hx)))
        (fun x hx => h2 x (List.mem_cons.2 (Or.inr hx))) ht
      rw [hd, htl]

theorem to_string_model_inj {m n : Nat} (h : to_string_model m = to_string_model n) :
    m = n := by
  unfold to_string_model at h
  by_cases hm : m = 0 <;> by_cases hn : n = 0
  · omega
  · exfalso
    rw [if_pos hm, if_neg hn] at h
    have hdata := congrArg String.data h
    have h0 : ("0" : String).data = ['0'] := rfl
    rw [h0] at hdata
    have hrev := congrArg List.reverse hdata
    rw [List.reverse_reverse] at hrev
    have h1 : (['0'] : List Char).reverse = ['0'] := rfl
    rw [h1] at hrev
    have h2 : (['0'] : List Char) = ([0] : List Nat).map digitChar := rfl
    rw [h2] at hrev
    have h3 : ([0] : List Nat) = digitsRev n n :=
      map_digitChar_inj (by intro d hd; simp at hd; omega) (digitsRev_lt_ten n n) hrev
    have h4 := digitsRev_val n n (le_refl n)
    rw [← h3] at h4
    have h5 : digitsVal [0] = 0 := rfl
    omega
  · exfalso
    rw [if_neg hm, if_pos hn] at h
    have hdata := congrArg String.data h
    have h0 : ("0" : String).data = ['0'] := rfl
    rw [h0] at hdata
    have hrev := congrArg List.reverse hdata.symm
    rw [List.reverse_reverse] at hrev
    have h1 : (['0'] : List Char).reverse = ['0'] := rfl
    rw [h1] at hrev
    have h2 : (['0'] : List Char) = ([0] : List Nat).map digitChar := rfl
    rw [h2] at hrev
    have h3 : ([0] : List Nat) = digitsRev m m :=
      map_digitChar_inj (by intro d hd; simp at hd; omega) (digitsRev_lt_ten m m) hrev
    have h4 := digitsRev_val m m (le_refl m)
    rw [← h3] at h4
    have h5 : digitsVal [0] = 0 := rfl
    omega
  · rw [if_neg hm, if_neg hn] at h
    have hdata := congrArg String.data h
    have hrev := congrArg List.reverse hdata
    rw [List.reverse_reverse, List.reverse_reverse] at hrev
    have heq := map_digitChar_inj (digitsRev_lt_ten m m) (digitsRev_lt_ten n n) hrev
    have h4 := digitsRev_val m m (le_refl m)
    have h5 := digitsRev_val n n (le_refl n)
    rw [heq] at h4
    omega

/-! ### Writer-run lemmas -/

theorem mem_documentResults {doc : PopplerDoc} {name : String} {r : PageResult} :
    r ∈ documentResults doc name ↔
      ∃ i : Nat, ∃ p : PopplerPage, i < doc.pages ∧ doc.create_page i = some p
        ∧ r = process_page (some p) name i := by
  unfold documentResults canonicalResults
  rw [min_self]
  constructor
  · intro h
    obtain ⟨i, hi, he⟩ := List.mem_filterMap.1 h
    obtain ⟨p, hp, hr⟩ := Option.map_eq_some'.1 he
    exact ⟨i, p, List.mem_range.1 hi, hp, hr.symm⟩
  · rintro ⟨i, p, hi, hp, hr⟩
    refine List.mem_filterMap.2 ⟨i, List.mem_range.2 hi, ?_⟩
    rw [hp, hr]
    rfl

theorem readFile_writer_write_self (out : List String) (fs : FSState) (r : PageResult) :
    readFile (writer_write out fs r) (textFileOf out r) = some r.text :=
  readFile_writeFile_self _ _ _

theorem readFile_writer_write_ne (out : List String) (fs : FSState) (r : PageResult)
    (p : List String) (h : p ≠ textFileOf out r) :
    readFile (writer_write out fs r) p = readFile fs p := by
  unfold writer_write
  rw [readFile_writeFile_ne _ _ _ _ h, readFile_create_directories]

theorem writer_run_cons (out : List String) (fs : FSState) (r : PageResult)
    (rest : List PageResult) :
    writer_run out fs (r :: rest) = writer_run out (writer_write out fs r) rest := rfl

theorem readFile_writer_run_of_ne (out : List String) :
    ∀ (rs : List PageResult) (fs : FSState) (p : List String),
      (∀ r ∈ rs, textFileOf out r ≠ p) →
      readFile (writer_run out fs rs) p = readFile fs p := by
  intro rs
  induction rs with
  | nil => intro fs p _; rfl
  | cons r rest ih =>
    intro fs p h
    rw [writer_run_cons,
      ih (writer_write out fs r) p (fun x hx => h x (List.mem_cons.2 (Or.inr hx))),
      readFile_writer_write_ne out fs r p (fun he => h r (List.mem_cons_self r rest) he.symm)]

theorem readFile_writer_run_mem (out : List String) :
    ∀ (rs : List PageResult) (fs : FSState) (r : PageResult), r ∈ rs →
      (∀ r' ∈ rs, textFileOf out r' = textFileOf out r → r' = r) →
      readFile (writer_run out fs rs) (textFileOf out r) = some r.text := by
  intro rs
  induction rs with
  | nil =>
    intro fs r hmem _
    cases hmem
  | cons r0 rest ih =>
    intro fs r hmem huniq
    rw [writer_run_cons]
    by_cases hr : r ∈ rest
    · exact ih (writer_write out fs r0) r hr
        (fun x hx he => huniq x (List.mem_cons.2 (Or.inr hx)) he)
    · have he0 : r0 = r := by
        rcases List.mem_cons.1 hmem with h | h
        · exact h.symm
        · exact absurd h hr
      subst he0
      have hnone : ∀ x ∈ rest, textFileOf out x ≠ textFileOf out r0 := by
        intro x hx he
        exact hr ((huniq x (List.mem_cons.2 (Or.inr hx)) he) ▸ hx)
      rw [readFile_writer_run_of_ne out rest (writer_write out fs r0) _ hnone]
      exact readFile_writer_write_self out fs r0

theorem dirs_writer_run_sub (out : List String) :
    ∀ (rs : List PageResult) (fs : FSState) (q : List String),
      q ∈ (writer_run out fs rs).dirs →
      q ∈ fs.dirs ∨ ∃ r ∈ rs, q ∈ ancestorsOf (pageDirOf out r) := by
  intro rs
  induction rs with
  | nil =>
    intro fs q h
    exact Or.inl h
  | cons r0 rest ih =>
    intro fs q h
    rw [writer_run_cons] at h
    rcases ih (writer_write out fs r0) q h with h1 | ⟨r, hr, ha⟩
    · rw [dirs_writer_write] at h1
      rcases (mem_foldl_addDir_iff _ _ _).1 h1 with h2 | h2
      · exact Or.inl h2
      · exact Or.inr ⟨r0, List.mem_cons_self r0 rest, h2⟩
    · exact Or.inr ⟨r, List.mem_cons.2 (Or.inr hr), ha⟩

/-- C6: in any completed run with at least one worker, a page index `k`
whose open fails yields no `PageResult` and nothing in the channel; the
claiming worker simply takes the skip step (counter advanced, status
still idle) with no diagnostic emitted anywhere in `process_pdf`'s
success path; every openable page still has its result produced, its
`text_layer.txt` written with the page's text, while no directory is
created for page `k`; and the run still exits 0. -/
theorem claim_C6_page_failure_isolation (doc : PopplerDoc) (name : String) (w : Nat)
    (k : Nat) (hW : 1 ≤ w) (hk : k < doc.pages) (hfail : doc.create_page k = none)
    (s : PipeState) (hs : Reachable doc name w s)
    (hdone : ∀ st ∈ s.workers, st = WStatus.done) :
    (∀ r ∈ s.written ++ s.chan.queue, r.page_id ≠ k)
    ∧ (∀ t : PipeState, ∀ wi : Nat, t.workers[wi]? = some WStatus.idle →
        t.counter < doc.pages → doc.create_page t.counter = none →
        Step doc name t
          { t with counter := t.counter + 1, claims := t.claims ++ [(wi, t.counter)] })
    ∧ (∀ j : Nat, j < doc.pages → (doc.create_page j).isSome = true →
        j ∈ (s.written ++ s.chan.queue).map PageResult.page_id)
    ∧ (∀ (out : List String) (tc : Int) (fs : FSState) (e : DirEntry) (d : PopplerDoc),
        e.doc = some d → (process_pdf_model out tc fs e).2 = [])
    ∧ (∀ out : List String, ∀ fs0 : FSState,
        (out ++ [name, to_string_model k]) ∉ fs0.dirs →
        (out ++ [name, to_string_model k])
          ∉ (writer_run out fs0 (documentResults doc name)).dirs)
    ∧ (∀ j : Nat, ∀ pg : PopplerPage, j < doc.pages → doc.create_page j = some pg →
        ∀ out : List String, ∀ fs0 : FSState,
        readFile (writer_run out fs0 (documentResults doc name))
          (out ++ [name, to_string_model j, "text_layer.txt"]) = some pg.textUtf8)
    ∧ (∀ (a0 a1 a2 a3 : String) (entries : List DirEntry) (tcv : Int),
        stoiModel a3 = some tcv →
        (main_model [a0, a1, a2, a3] true true entries).map (fun x => x.1) = some 0) := by
  obtain ⟨h1, h2, h3, h4, h5, h6, h7⟩ := pipeInv_reachable doc name w hs
  have hne : s.workers ≠ [] := by
    intro he
    rw [he] at h1
    simp at h1
    omega
  obtain ⟨st0, hmem0⟩ := List.exists_mem_of_ne_nil s.workers hne
  have hP : doc.pages ≤ s.counter := h4 ⟨st0, hmem0, hdone st0 hmem0⟩
  have hwr : workingResults s.workers = [] := workingResults_eq_nil_of_done hdone
  have hperm : List.Perm (s.written ++ s.chan.queue) (documentResults doc name) := by
    rw [hwr, List.append_nil, canonical_of_ge doc name hP] at h6
    exact h6
  have huniqpath : ∀ out : List String, ∀ r' ∈ documentResults doc name,
      ∀ r ∈ documentResults doc name,
      textFileOf out r' = textFileOf out r → r' = r := by
    intro out r' hr' r hr he
    obtain ⟨i', p', hi', hp', hre'⟩ := mem_documentResults.1 hr'
    obtain ⟨i, p, hi, hp, hre⟩ := mem_documentResults.1 hr
    unfold textFileOf pageDirOf at he
    rw [List.append_assoc, List.append_assoc] at he
    have h2' := List.append_cancel_left he
    have hts : to_string_model r'.page_id = to_string_model r.page_id := by
      simp only [List.cons_append, List.nil_append, List.cons.injEq] at h2'
      exact h2'.2.1
    have hpid : r'.page_id = r.page_id := to_string_model_inj hts
    have hid' : r'.page_id = i' := by rw [hre']; rfl
    have hid : r.page_id = i := by rw [hre]; rfl
    have hii : i' = i := by omega
    rw [hii] at hp'
    rw [hp] at hp'
    have hpp : p = p' := Option.some.inj hp'
    rw [hre', hre, hii, ← hpp]
  refine ⟨?_, ?_, ?_, ?_, ?_, ?_, ?_⟩
  · intro r hr hkeq
    have hrd : r ∈ documentResults doc name := (hperm.mem_iff).1 hr
    obtain ⟨i, p, hi, hp, hre⟩ := mem_documentResults.1 hrd
    have hpid : r.page_id = i := by rw [hre]; rfl
    have hik : i = k := by omega
    rw [hik] at hp
    rw [hfail] at hp
    exact Option.noConfusion hp
  · intro t wi hidle hlt hcp
    exact Step.fetchOpenFail t wi hidle hlt hcp
  · intro j hj hjs
    obtain ⟨pg, hpg⟩ := Option.isSome_iff_exists.1 hjs
    have hmemd : process_page (some pg) name j ∈ documentResults doc name :=
      mem_documentResults.2 ⟨j, pg, hj, hpg, rfl⟩
    have hmemq : process_page (some pg) name j ∈ s.written ++ s.chan.queue :=
      (hperm.mem_iff).2 hmemd
    exact List.mem_map.2 ⟨_, hmemq, rfl⟩
  · intro out tc fs e d he
    by_cases hz : numWorkers tc = 0 <;> simp [process_pdf_model, he, hz]
  · intro out fs0 hnot hmem
    rcases dirs_writer_run_sub out (documentResults doc name) fs0 _ hmem
      with hin | ⟨r, hr, hanc⟩
    · exact hnot hin
    · unfold ancestorsOf at hanc
      obtain ⟨i, hirange, heq⟩ := List.mem_map.1 hanc
      have hlenp : (pageDirOf out r).length = out.length + 2 := by simp [pageDirOf]
      have hi2 : i < out.length + 2 := by
        have := List.mem_range.1 hirange
        omega
      have hlentake := congrArg List.length heq
      rw [List.length_take, hlenp] at hlentake
      have hlenq : (out ++ [name, to_string_model k]).length = out.length + 2 := by simp
      rw [hlenq] at hlentake
      have hieq : i + 1 = out.length + 2 := by omega
      rw [hieq, ← hlenp, List.take_length] at heq
      unfold pageDirOf at heq
      have h2' := List.append_cancel_left heq
      have hts : to_string_model r.page_id = to_string_model k := by
        simp only [List.cons.injEq] at h2'
        exact h2'.2.1
      have hpid : r.page_id = k := to_string_model_inj hts
      obtain ⟨i', p', hi', hp', hre'⟩ := mem_documentResults.1 hr
      have hid' : r.page_id = i' := by rw [hre']; rfl
      have hik : i' = k := by omega
      rw [hik] at hp'
      rw [hfail] at hp'
      exact Option.noConfusion hp'
  · intro j pg hj hpg out fs0
    have hmemd : process_page (some pg) name j ∈ documentResults doc name :=
      mem_documentResults.2 ⟨j, pg, hj, hpg, rfl⟩
    have hpath : textFileOf out (process_page (some pg) name j)
        = out ++ [name, to_string_model j, "text_layer.txt"] := by
      unfold textFileOf pageDirOf
      rw [List.append_assoc]
      rfl
    rw [← hpath]
    exact readFile_writer_run_mem out (documentResults doc name) fs0
      (process_page (some pg) name j) hmemd
      (fun r' hr' he => huniqpath out r' hr' _ hmemd he)
  · intro a0 a1 a2 a3 entries tcv hst
    simp [main_model, hst]

/-- Witness for C6: in the completed run over `demoFailDoc` no result
exists for failed page 0, and page 1's text file is still written with
its text. -/
theorem claim_C6_witness :
    (∀ r ∈ demoFailFinal.written ++ demoFailFinal.chan.queue, r.page_id ≠ 0)
    ∧ readFile (writer_run ["out"] emptyFS (documentResults demoFailDoc "report"))
        (["out"] ++ ["report", to_string_model 1, "text_layer.txt"]) = some "World" := by
  have h := claim_C6_page_failure_isolation demoFailDoc "report" 1 0 (by decide)
    (by decide) (by decide) demoFailFinal demoFailReach (by decide)
  exact ⟨h.1, h.2.2.2.2.2.1 1 demoPage1 (by decide) (by decide) ["out"] emptyFS⟩
